import Mathlib

/-!
# Trace-driven cache simulator (`caches.c`)

A shallow embedding of the simulator: the address decoder (`get_tag`, `get_index`), the
lookup-or-install operation (`access_cache`) with its two helpers (`update_counters`,
`find_replacement`), the configuration table built by `main`, and the driver `main` itself.

Conventions of the embedding.

* `uint32_t` addresses and tags are natural numbers; the decoder only divides and takes
  remainders, so no wrap-around can occur.
* An `int` that is incremented (`counter` of a line, `hits[i]` and `num_accesses` of `main`) is
  an integer of the 32-bit range `INT_MIN .. INT_MAX`, and `x++` is `int_incr`, the increment
  modulo `2^32` in two's complement: after `INT_MAX` comes `INT_MIN`, as in the compiled
  program (in ISO C this overflow is undefined).  The locals `max_counter` and `replacement`
  of `find_replacement` (initially `-1`) are integers; the other `int`s (`num_sets`,
  `num_ways`, loop variables) stay far below `2^31` in every configuration of `main` and are
  natural numbers.
* The line table `cache_lines` is a list.  Every read or write of `cache_lines[idx]` outside
  the table, and every remainder by zero, makes the operation return `none`.
* `rand()` is a stream `rnd : Nat → Nat` of draws together with the number `k` of calls made
  so far; a call returns `rnd k` and advances `k`.
* The `for` loops are recursive functions whose first numeric argument is the number of
  iterations left (`num_ways - way`).
* The trace file is the list of the addresses its hexadecimal tokens denote (or nothing, when
  it cannot be opened); files holding anything else than hexadecimal tokens are not modelled.
  Of the printed hit rate only the operands of its division are kept.
-/

namespace Caches

/-! ## Constants and data model -/

/-- The macro `CACHE_SIZE`. -/
def CACHE_SIZE : Nat := 32

/-- The macro `BLOCK_SIZE`. -/
def BLOCK_SIZE : Nat := 4

/-- The macro `NUM_BLOCKS`, defined as `CACHE_SIZE / BLOCK_SIZE`. -/
def NUM_BLOCKS : Nat := CACHE_SIZE / BLOCK_SIZE

/-- The macro `NUM_WAYS_2`. -/
def NUM_WAYS_2 : Nat := 2

/-- The macro `NUM_WAYS_4`. -/
def NUM_WAYS_4 : Nat := 4

/-- The enumeration `CacheType`, in declaration order (values 0 to 3). -/
inductive CacheType where
  | DIRECT_MAPPED
  | TWO_WAY
  | FOUR_WAY
  | FULLY_ASSOC
  deriving DecidableEq, Repr

/-- The enumeration `ReplacementPolicy`, in declaration order (values 0 and 1). -/
inductive ReplacementPolicy where
  | LRU
  | RANDOM
  deriving DecidableEq, Repr

/-- The greatest value of a 32-bit `int`. -/
def INT_MAX : Int := 2147483647

/-- The least value of a 32-bit `int`. -/
def INT_MIN : Int := -2147483648

/-- The increment `x++` of a 32-bit `int` in two's complement: `x + 1` reduced modulo `2^32`
to the range `INT_MIN .. INT_MAX`, so that `INT_MAX` is followed by `INT_MIN`. -/
def int_incr (x : Int) : Int :=
  (x + 1 + 2147483648) % 4294967296 - 2147483648

/-- The struct `CacheLine`. -/
structure CacheLine where
  tag : Nat
  valid : Bool
  counter : Int
  deriving DecidableEq, Repr

/-- The struct `Cache`; `cache_lines` is the table the pointer refers to. -/
structure Cache where
  type : CacheType
  policy : ReplacementPolicy
  num_sets : Nat
  num_ways : Nat
  cache_lines : List CacheLine
  deriving DecidableEq, Repr

/-! ## Address decoder -/

/-- The function `get_tag`: `address / NUM_BLOCKS`. -/
def get_tag (address : Nat) : Nat :=
  address / NUM_BLOCKS

/-- The function `get_index`: `(address / BLOCK_SIZE) % num_sets`.  For `num_sets = 0` the C
remainder is undefined: `access_cache`, the only caller, returns `none` on such a cache. -/
def get_index (address : Nat) (num_sets : Nat) : Nat :=
  (address / BLOCK_SIZE) % num_sets

/-! ## Recency update -/

/-- The loop of `update_counters`: `n` iterations are left, the loop variable is `way`; each
iteration increments the counter of line `set_idx * num_ways + way`. -/
def update_counters_loop (set_idx num_ways : Nat) :
    Nat → Nat → List CacheLine → Option (List CacheLine)
  | 0, _, lines => some lines
  | n + 1, way, lines =>
    let idx := set_idx * num_ways + way
    match lines[idx]? with
    | none => none
    | some l =>
      update_counters_loop set_idx num_ways n (way + 1)
        (lines.set idx { l with counter := int_incr l.counter })

/-- The function `update_counters`: under LRU, increment every counter of the set, then zero
the counter of the touched way; under the random policy, nothing. -/
def update_counters (cache : Cache) (set_idx way_idx : Nat) : Option Cache :=
  match cache.policy with
  | ReplacementPolicy.LRU =>
    match update_counters_loop set_idx cache.num_ways cache.num_ways 0 cache.cache_lines with
    | none => none
    | some lines =>
      let idx := set_idx * cache.num_ways + way_idx
      match lines[idx]? with
      | none => none
      | some l => some { cache with cache_lines := lines.set idx { l with counter := 0 } }
  | ReplacementPolicy.RANDOM => some cache

/-! ## Victim selection -/

/-- The LRU loop of `find_replacement`: `n` iterations are left, the loop variable is `way`,
and `max_counter`, `replacement` are the two locals.  An invalid line is returned at once. -/
def find_replacement_loop (lines : List CacheLine) (set_idx num_ways : Nat) :
    Nat → Nat → Int → Int → Option Int
  | 0, _, _, replacement => some replacement
  | n + 1, way, max_counter, replacement =>
    let idx := set_idx * num_ways + way
    match lines[idx]? with
    | none => none
    | some l =>
      if !l.valid then some (idx : Int)
      else if l.counter > max_counter then
        find_replacement_loop lines set_idx num_ways n (way + 1) l.counter (idx : Int)
      else
        find_replacement_loop lines set_idx num_ways n (way + 1) max_counter replacement

/-- The function `find_replacement`.  The result is the chosen line index (or the initial
`-1`) and the number of `rand()` calls made so far. -/
def find_replacement (rnd : Nat → Nat) (k : Nat) (cache : Cache) (set_idx : Nat) :
    Option (Int × Nat) :=
  match cache.policy with
  | ReplacementPolicy.LRU =>
    match find_replacement_loop cache.cache_lines set_idx cache.num_ways cache.num_ways 0
        (-1) (-1) with
    | none => none
    | some replacement => some (replacement, k)
  | ReplacementPolicy.RANDOM =>
    if cache.num_ways = 0 then none
    else some (((set_idx * cache.num_ways + rnd k % cache.num_ways : Nat) : Int), k + 1)

/-! ## Access -/

/-- The lookup loop of `access_cache`: `n` iterations are left, the loop variable is `way`.
The result is `some way` at the first valid line of the set holding `tag`, and `none` when the
loop runs to its end. -/
def access_cache_loop (lines : List CacheLine) (tag index num_ways : Nat) :
    Nat → Nat → Option (Option Nat)
  | 0, _ => some none
  | n + 1, way =>
    let idx := index * num_ways + way
    match lines[idx]? with
    | none => none
    | some l =>
      if l.valid && l.tag == tag then some (some way)
      else access_cache_loop lines tag index num_ways n (way + 1)

/-- The function `access_cache`: the result is the returned flag (`true` for a hit), the cache
after the call and the number of `rand()` calls made so far.  The first test stands for the
undefined remainder by `num_sets = 0` in `get_index`. -/
def access_cache (rnd : Nat → Nat) (k : Nat) (cache : Cache) (address : Nat) :
    Option (Bool × Cache × Nat) :=
  if cache.num_sets = 0 then none
  else
  let tag := get_tag address
  let index := get_index address cache.num_sets
  match access_cache_loop cache.cache_lines tag index cache.num_ways cache.num_ways 0 with
  | none => none
  | some (some way) =>
    match update_counters cache index way with
    | none => none
    | some cache1 => some (true, cache1, k)
  | some none =>
    match find_replacement rnd k cache index with
    | none => none
    | some (replacement, k1) =>
      if replacement < 0 then none
      else
        match cache.cache_lines[replacement.toNat]? with
        | none => none
        | some l =>
          let cache1 : Cache :=
            { cache with
              cache_lines :=
                cache.cache_lines.set replacement.toNat { l with tag := tag, valid := true } }
          match update_counters cache1 index (replacement.toNat % cache.num_ways) with
          | none => none
          | some cache2 => some (false, cache2, k1)

/-! ## The configuration table of `main` -/

/-- The cast `(CacheType)(i / 2)` for the loop counter of `main`. -/
def cache_type_of (n : Nat) : CacheType :=
  match n with
  | 0 => CacheType.DIRECT_MAPPED
  | 1 => CacheType.TWO_WAY
  | 2 => CacheType.FOUR_WAY
  | _ => CacheType.FULLY_ASSOC

/-- The cast `(ReplacementPolicy)(i % 2)` for the loop counter of `main`. -/
def policy_of (n : Nat) : ReplacementPolicy :=
  match n with
  | 0 => ReplacementPolicy.LRU
  | _ => ReplacementPolicy.RANDOM

/-- A zero-filled line, as produced by `calloc`. -/
def zero_line : CacheLine := { tag := 0, valid := false, counter := 0 }

/-- The body of the configuration loop of `main` for loop counter `i`. -/
def configs (i : Nat) : Cache :=
  let type := cache_type_of (i / 2)
  let policy := policy_of (i % 2)
  let num_sets :=
    if type = CacheType.DIRECT_MAPPED then NUM_BLOCKS
    else if type = CacheType.TWO_WAY then NUM_BLOCKS / NUM_WAYS_2
    else if type = CacheType.FOUR_WAY then NUM_BLOCKS / NUM_WAYS_4
    else 1
  let num_ways :=
    if type = CacheType.DIRECT_MAPPED then 1
    else if type = CacheType.TWO_WAY then NUM_WAYS_2
    else if type = CacheType.FOUR_WAY then NUM_WAYS_4
    else NUM_BLOCKS
  { type := type
    policy := policy
    num_sets := num_sets
    num_ways := num_ways
    cache_lines := List.replicate (num_sets * num_ways) zero_line }

/-- A freshly allocated cache of an arbitrary geometry: every line zero-filled. -/
def fresh_cache (type : CacheType) (policy : ReplacementPolicy) (num_sets num_ways : Nat) :
    Cache :=
  { type := type
    policy := policy
    num_sets := num_sets
    num_ways := num_ways
    cache_lines := List.replicate (num_sets * num_ways) zero_line }

/-! ## Replaying a trace -/

/-- What one access did: a hit, or a miss together with the line index `find_replacement`
chose as victim. -/
inductive Outcome where
  | hit
  | miss (victim : Int)
  deriving DecidableEq, Repr

/-- One access together with its outcome: the flag and the new state are those of
`access_cache`; on a miss the victim is what `find_replacement` returns on the state before
the call. -/
def access_outcome (rnd : Nat → Nat) (k : Nat) (cache : Cache) (address : Nat) :
    Option (Outcome × Cache × Nat) :=
  match access_cache rnd k cache address with
  | none => none
  | some (true, cache1, k1) => some (Outcome.hit, cache1, k1)
  | some (false, cache1, k1) =>
    match find_replacement rnd k cache (get_index address cache.num_sets) with
    | none => none
    | some (replacement, _) => some (Outcome.miss replacement, cache1, k1)

/-- The trace loop of `main` for one configuration: the addresses are accessed in order; the
result lists the outcome of every access and gives the final state. -/
def replay (rnd : Nat → Nat) : Nat → Cache → List Nat → Option (List Outcome × Cache × Nat)
  | k, cache, [] => some ([], cache, k)
  | k, cache, address :: rest =>
    match access_outcome rnd k cache address with
    | none => none
    | some (o, cache1, k1) =>
      match replay rnd k1 cache1 rest with
      | none => none
      | some (os, cache2, k2) => some (o :: os, cache2, k2)

/-- The flag `access_cache` returned for an outcome. -/
def Outcome.is_hit : Outcome → Bool
  | Outcome.hit => true
  | Outcome.miss _ => false

/-- The states reachable from a cache `c0` by successful `access_cache` calls, for any
addresses and any random draws. -/
inductive Reachable (c0 : Cache) : Cache → Prop where
  | start : Reachable c0 c0
  | step {c c1 : Cache} (rnd : Nat → Nat) (k k1 : Nat) (address : Nat) (hit : Bool) :
      Reachable c0 c → access_cache rnd k c address = some (hit, c1, k1) → Reachable c0 c1

/-! ## Auxiliary notions used to state the properties -/


/-- The value of a 32-bit `int` that held `x` after `n` increments `x++`, in closed form:
`x + n` reduced modulo `2^32` to the range `INT_MIN .. INT_MAX`. -/
def int_incr_n (x : Int) (n : Nat) : Int :=
  (x + (n : Int) + 2147483648) % 4294967296 - 2147483648

/-- The effect of one recency update on line `i`, when the updated set occupies the indices
`base ≤ i < base + num_ways` and the touched line is `j`. -/
def touch (policy : ReplacementPolicy) (base num_ways j i : Nat) (l : CacheLine) : CacheLine :=
  if policy = ReplacementPolicy.LRU ∧ base ≤ i ∧ i < base + num_ways then
    if i = j then { l with counter := 0 } else { l with counter := int_incr l.counter }
  else l

/-- Two caches of the same configuration: only the contents of the lines may differ. -/
def SameShape (c c1 : Cache) : Prop :=
  c1.type = c.type ∧ c1.policy = c.policy ∧ c1.num_sets = c.num_sets ∧
    c1.num_ways = c.num_ways ∧ c1.cache_lines.length = c.cache_lines.length


/-- The line stored at index `i` of a table (a zero-filled line outside the table). -/
def line_at (lines : List CacheLine) (i : Nat) : CacheLine :=
  (lines[i]?).getD zero_line


/-- The effect of a miss with victim `j` on the tag and valid bit of line `i`. -/
def install (tag j i : Nat) (l : CacheLine) : CacheLine :=
  if i = j then { l with tag := tag, valid := true } else l

/-- The state invariant of the simulator: the table has `num_sets * num_ways` lines and, under
the LRU policy, every set whose lines are all valid has a line whose counter is not negative
(the line touched last has counter 0), so that the victim search finds a line. -/
def Inv (c : Cache) : Prop :=
  c.cache_lines.length = c.num_sets * c.num_ways ∧
    (c.policy = ReplacementPolicy.LRU → 1 ≤ c.num_ways → ∀ s, s < c.num_sets →
      (∀ w, w < c.num_ways → (line_at c.cache_lines (s * c.num_ways + w)).valid = true) →
      ∃ w, w < c.num_ways ∧ 0 ≤ (line_at c.cache_lines (s * c.num_ways + w)).counter)

/-- A cache of policy `p` with `S` sets of `W` ways that satisfies the state invariant. -/
def Shaped (c : Cache) (p : ReplacementPolicy) (S W : Nat) : Prop :=
  c.policy = p ∧ c.num_sets = S ∧ c.num_ways = W ∧ Inv c

/-- Line `i` is valid and holds tag `t`. -/
def holds (lines : List CacheLine) (i t : Nat) : Prop :=
  (line_at lines i).valid = true ∧ (line_at lines i).tag = t

/-- Every miss recorded in `os` chose a line of the set its address maps to. -/
def VictimsInSet (S W : Nat) (addrs : List Nat) (os : List Outcome) : Prop :=
  ∀ (M : Nat) (v : Int), os[M]? = some (Outcome.miss v) →
    ∃ aM w, addrs[M]? = some aM ∧ w < W ∧ v = ((get_index aM S * W + w : Nat) : Int)

/-- Some access of the history was a miss with victim line `i` whose address has tag `t`, and
no later access was a miss with the same victim. -/
def LastInstall (addrs : List Nat) (os : List Outcome) (i t : Nat) : Prop :=
  ∃ M aM, os[M]? = some (Outcome.miss (i : Int)) ∧ addrs[M]? = some aM ∧ get_tag aM = t ∧
    ∀ j : Nat, M < j → os[j]? ≠ some (Outcome.miss (i : Int))

/-- Some access `M < N` was a miss whose address has the tag and set index of `aN`, and no
access strictly between `M` and `N` was a miss with the same victim. -/
def Installed (S : Nat) (addrs : List Nat) (os : List Outcome) (N aN : Nat) : Prop :=
  ∃ M aM v, M < N ∧ addrs[M]? = some aM ∧ os[M]? = some (Outcome.miss v) ∧
    get_tag aM = get_tag aN ∧ get_index aM S = get_index aN S ∧
    ∀ j : Nat, M < j → j < N → os[j]? ≠ some (Outcome.miss v)

/-! ## The reference LRU cache -/

/-- One access to the reference LRU cache of capacity `cap`, a recency-ordered list of tags
(most recently used first): the access hits iff its tag is in the list; a hit moves the tag to
the front; a miss inserts the tag at the front, dropping the last tag when the list already
holds `cap` tags.  The result is the hit flag and the new list. -/
def ref_lru_access (cap : Nat) (l : List Nat) (t : Nat) : Bool × List Nat :=
  if t ∈ l then (true, t :: l.erase t)
  else if l.length = cap then (false, t :: l.dropLast)
  else (false, t :: l)

/-- The reference LRU cache replayed on a sequence of tags: the hit flags and the final
list. -/
def ref_lru_replay (cap : Nat) : List Nat → List Nat → List Bool × List Nat
  | l, [] => ([], l)
  | l, t :: rest =>
    ((ref_lru_access cap l t).1 :: (ref_lru_replay cap (ref_lru_access cap l t).2 rest).1,
      (ref_lru_replay cap (ref_lru_access cap l t).2 rest).2)

/-- The lines of the set that starts at index `base`, by way. -/
def set_view (lines : List CacheLine) (base : Nat) (w : Nat) : CacheLine :=
  line_at lines (base + w)

/-- A set of `W` lines (given by way) represents the recency list `L`: the valid ways, ordered
by increasing counter, hold the tags of `L` in order, and no tag occurs twice. -/
def LruRel (f : Nat → CacheLine) (W : Nat) (L : List Nat) : Prop :=
  ∃ ws : List Nat, ws.Nodup ∧ (∀ w, w ∈ ws ↔ w < W ∧ (f w).valid = true) ∧
    L = ws.map (fun w => (f w).tag) ∧ L.Nodup ∧
    ws.Pairwise (fun a b => (f a).counter < (f b).counter)

/-- The ways `ws` of a set of `W` lines (given by way) are distinct valid ways whose counters
are 0, 1, 2, ... in the order of the list: the ways touched by the latest accesses to the set,
the latest first. -/
def RecentWays (f : Nat → CacheLine) (W : Nat) (ws : List Nat) : Prop :=
  ws.Nodup ∧ (∀ w, w ∈ ws → w < W ∧ (f w).valid = true) ∧
    ∀ (p w : Nat), ws[p]? = some w → (f w).counter = (p : Int)

/-- The state of a set of `W` lines (given by way) after accesses with the tags `T` (the latest
first), the oldest of which is `t0`: either no valid line of the set holds `t0` any more, or
these accesses touched pairwise distinct ways, the way touched first still holds `t0`, and
every touched way holds a tag of `T`. -/
def CycleInv (f : Nat → CacheLine) (W t0 : Nat) (T : List Nat) : Prop :=
  (∀ w, w < W → ¬ ((f w).valid = true ∧ (f w).tag = t0)) ∨
    ∃ (init : List Nat) (x0 : Nat), RecentWays f W (init ++ [x0]) ∧
      init.length + 1 = T.length ∧ (∀ w, w ∈ init ++ [x0] → (f w).tag ∈ T) ∧ (f x0).tag = t0

/-! ## The line an access touches -/

/-- The two operands of the division in the hit-rate expression
`(float)hits[i] / num_accesses * 100`, which `main` evaluates for every configuration whatever
`num_accesses` is.  The floating-point value of the expression is not modelled. -/
structure HitRate where
  hits : Int
  num_accesses : Int
  deriving DecidableEq, Repr

/-- What `main` prints: the error message of a file that cannot be opened, or the four-line
report of one configuration (its number `i + 1`, type, policy, `hits[i]`, `num_accesses`, and
the hit rate). -/
inductive Output where
  | cannot_open_file
  | config_report (number : Nat) (type : CacheType) (policy : ReplacementPolicy) (hits : Int)
      (num_accesses : Int) (hit_rate : HitRate)
  deriving DecidableEq, Repr

/-- The inner loop of the trace loop of `main`: the address is accessed in every configuration
in turn (each paired with its hit count `hits[i]`, an `int` incremented by `hits[i]++`), all
sharing the random source. -/
def main_access_all (rnd : Nat → Nat) (address : Nat) :
    Nat → List (Cache × Int) → Option (List (Cache × Int) × Nat)
  | k, [] => some ([], k)
  | k, (cache, hits) :: rest =>
    match access_cache rnd k cache address with
    | none => none
    | some (hit, cache1, k1) =>
      match main_access_all rnd address k1 rest with
      | none => none
      | some (rest1, k2) => some ((cache1, if hit then int_incr hits else hits) :: rest1, k2)

/-- The trace loop of `main`, over the addresses read from the file; the third argument is
`num_accesses`, an `int` incremented by `num_accesses++`. -/
def main_trace_loop (rnd : Nat → Nat) :
    Nat → List (Cache × Int) → Int → List Nat → Option (List (Cache × Int) × Int × Nat)
  | k, st, num_accesses, [] => some (st, num_accesses, k)
  | k, st, num_accesses, address :: rest =>
    match main_access_all rnd address k st with
    | none => none
    | some (st1, k1) => main_trace_loop rnd k1 st1 (int_incr num_accesses) rest

/-- The report loop of `main`, from loop counter `i`. -/
def main_report (num_accesses : Int) : Nat → List (Cache × Int) → List Output
  | _, [] => []
  | i, (cache, hits) :: rest =>
    Output.config_report (i + 1) cache.type cache.policy hits num_accesses
        { hits := hits, num_accesses := num_accesses } ::
      main_report num_accesses (i + 1) rest

/-- The function `main`.  The file is `none` when `fopen` fails, and otherwise the addresses
its hexadecimal tokens denote; the result is the exit status and what is printed. -/
def main (rnd : Nat → Nat) (file : Option (List Nat)) : Option (Nat × List Output) :=
  match file with
  | none => some (1, [Output.cannot_open_file])
  | some addrs =>
    match main_trace_loop rnd 0 ((List.range 8).map (fun i => (configs i, 0))) 0 addrs with
    | none => none
    | some (st, num_accesses, _) => some (0, main_report num_accesses 0 st)

/-! ## The loops and helpers, line by line -/


theorem update_counters_loop_spec (set_idx num_ways : Nat) :
    ∀ (n way : Nat) (lines : List CacheLine),
      set_idx * num_ways + way + n ≤ lines.length →
      ∃ lines1, update_counters_loop set_idx num_ways n way lines = some lines1 ∧
        lines1.length = lines.length ∧
        ∀ i, lines1[i]? = (lines[i]?).map (fun l =>
          if set_idx * num_ways + way ≤ i ∧ i < set_idx * num_ways + way + n then
            { l with counter := int_incr l.counter } else l) := by
  intro n
  induction n with
  | zero =>
    intro way lines _
    refine ⟨lines, rfl, rfl, ?_⟩
    intro i
    have : ¬ (set_idx * num_ways + way ≤ i ∧ i < set_idx * num_ways + way) := by omega
    cases lines[i]? <;> simp [this]
  | succ n ih =>
    intro way lines hlen
    have hlt : set_idx * num_ways + way < lines.length := by omega
    obtain ⟨lines1, h1, h2, h3⟩ := ih (way + 1)
      (lines.set (set_idx * num_ways + way)
        { lines[set_idx * num_ways + way] with
          counter := int_incr lines[set_idx * num_ways + way].counter })
      (by simp only [List.length_set]; omega)
    refine ⟨lines1, ?_, ?_, ?_⟩
    · simp only [update_counters_loop, List.getElem?_eq_getElem hlt]
      exact h1
    · simpa using h2
    · intro i
      rw [h3 i, List.getElem?_set]
      by_cases hi : set_idx * num_ways + way = i
      · subst hi
        simp [hlt]
      · simp only [hi, if_false]
        cases hv : lines[i]? with
        | none => simp
        | some l =>
          simp only [Option.map_some']
          congr 1
          by_cases h4 : set_idx * num_ways + (way + 1) ≤ i ∧
              i < set_idx * num_ways + (way + 1) + n
          · have : set_idx * num_ways + way ≤ i ∧ i < set_idx * num_ways + way + (n + 1) := by
              omega
            simp [h4, this]
          · have : ¬ (set_idx * num_ways + way ≤ i ∧
                i < set_idx * num_ways + way + (n + 1)) := by omega
            simp [h4, this]

theorem line_at_of_lt {lines : List CacheLine} {i : Nat} (h : i < lines.length) :
    lines[i]? = some (line_at lines i) := by
  simp [line_at, List.getElem?_eq_getElem h]

theorem line_at_set (lines : List CacheLine) (j i : Nat) (l : CacheLine)
    (hj : j < lines.length) :
    line_at (lines.set j l) i = if j = i then l else line_at lines i := by
  unfold line_at
  rw [List.getElem?_set]
  by_cases h : j = i
  · subst h
    simp [hj]
  · simp [h]

theorem update_counters_spec (c : Cache) (s way_idx : Nat)
    (hb : s * c.num_ways + c.num_ways ≤ c.cache_lines.length) (hw : way_idx < c.num_ways) :
    ∃ c1, update_counters c s way_idx = some c1 ∧ SameShape c c1 ∧
      ∀ i, i < c.cache_lines.length →
        line_at c1.cache_lines i =
          touch c.policy (s * c.num_ways) c.num_ways (s * c.num_ways + way_idx) i
            (line_at c.cache_lines i) := by
  cases hp : c.policy with
  | RANDOM =>
    refine ⟨c, by simp [update_counters, hp], ⟨rfl, rfl, rfl, rfl, rfl⟩, ?_⟩
    intro i _
    simp [touch]
  | LRU =>
    obtain ⟨lines1, h1, h2, h3⟩ :=
      update_counters_loop_spec s c.num_ways c.num_ways 0 c.cache_lines (by omega)
    have hlt : s * c.num_ways + way_idx < lines1.length := by omega
    refine ⟨{ c with cache_lines := (lines1.set (s * c.num_ways + way_idx)
        { line_at lines1 (s * c.num_ways + way_idx) with counter := 0 }) }, ?_, ?_, ?_⟩
    · simp [update_counters, hp, h1, line_at_of_lt hlt]
    · exact ⟨rfl, rfl, rfl, rfl, by simp [h2]⟩
    · intro i hi
      have hi1 : i < lines1.length := by omega
      have e1 : lines1[i]? = some (if s * c.num_ways ≤ i ∧ i < s * c.num_ways + c.num_ways then
          { line_at c.cache_lines i with counter := int_incr (line_at c.cache_lines i).counter }
          else line_at c.cache_lines i) := by
        rw [h3 i, line_at_of_lt hi]
        simp
      simp only [line_at_set _ _ _ _ hlt, touch, true_and]
      by_cases hji : s * c.num_ways + way_idx = i
      · subst hji
        have hr : s * c.num_ways ≤ s * c.num_ways + way_idx ∧
            s * c.num_ways + way_idx < s * c.num_ways + c.num_ways := by omega
        simp [line_at, e1, hr]
      · have hij : i ≠ s * c.num_ways + way_idx := fun h => hji h.symm
        simp only [hji, hij, if_false]
        simp [line_at, e1]

theorem access_cache_loop_spec (lines : List CacheLine) (tag index num_ways : Nat) :
    ∀ (n way : Nat), index * num_ways + way + n ≤ lines.length →
      (∃ w, access_cache_loop lines tag index num_ways n way = some (some w) ∧
        way ≤ w ∧ w < way + n ∧
        (line_at lines (index * num_ways + w)).valid = true ∧
        (line_at lines (index * num_ways + w)).tag = tag ∧
        ∀ w1, way ≤ w1 → w1 < w →
          ¬ ((line_at lines (index * num_ways + w1)).valid = true ∧
            (line_at lines (index * num_ways + w1)).tag = tag)) ∨
      (access_cache_loop lines tag index num_ways n way = some none ∧
        ∀ w1, way ≤ w1 → w1 < way + n →
          ¬ ((line_at lines (index * num_ways + w1)).valid = true ∧
            (line_at lines (index * num_ways + w1)).tag = tag)) := by
  intro n
  induction n with
  | zero =>
    intro way _
    right
    refine ⟨rfl, ?_⟩
    intro w1 h1 h2
    omega
  | succ n ih =>
    intro way hlen
    have hlt : index * num_ways + way < lines.length := by omega
    by_cases hm : (line_at lines (index * num_ways + way)).valid = true ∧
        (line_at lines (index * num_ways + way)).tag = tag
    · left
      refine ⟨way, ?_, le_refl _, by omega, hm.1, hm.2, ?_⟩
      · simp [access_cache_loop, line_at_of_lt hlt, hm.1, hm.2]
      · intro w1 h1 h2
        omega
    · have hstep : access_cache_loop lines tag index num_ways (n + 1) way =
          access_cache_loop lines tag index num_ways n (way + 1) := by
        simp only [access_cache_loop, line_at_of_lt hlt]
        have : ((line_at lines (index * num_ways + way)).valid &&
            (line_at lines (index * num_ways + way)).tag == tag) = false := by
          cases hv : (line_at lines (index * num_ways + way)).valid
          · simp
          · simp only [hv, true_and] at hm
            simp [hm]
        simp [this]
      rcases ih (way + 1) (by omega) with ⟨w, h1, h2, h3, h4, h5, h6⟩ | ⟨h1, h2⟩
      · left
        refine ⟨w, by rw [hstep]; exact h1, by omega, by omega, h4, h5, ?_⟩
        intro w1 hw1 hw2
        by_cases hww : w1 = way
        · subst hww
          exact hm
        · exact h6 w1 (by omega) hw2
      · right
        refine ⟨by rw [hstep]; exact h1, ?_⟩
        intro w1 hw1 hw2
        by_cases hww : w1 = way
        · subst hww
          exact hm
        · exact h2 w1 (by omega) (by omega)

theorem find_replacement_loop_spec (lines : List CacheLine) (set_idx num_ways : Nat) :
    ∀ (n way : Nat) (mx rep : Int), set_idx * num_ways + way + n ≤ lines.length →
      ∃ r, find_replacement_loop lines set_idx num_ways n way mx rep = some r ∧
        ((∃ v, way ≤ v ∧ v < way + n ∧ r = ((set_idx * num_ways + v : Nat) : Int) ∧
            (line_at lines (set_idx * num_ways + v)).valid = false ∧
            ∀ w, way ≤ w → w < v → (line_at lines (set_idx * num_ways + w)).valid = true) ∨
          ((∀ w, way ≤ w → w < way + n →
              (line_at lines (set_idx * num_ways + w)).valid = true) ∧
            ((r = rep ∧ ∀ w, way ≤ w → w < way + n →
                (line_at lines (set_idx * num_ways + w)).counter ≤ mx) ∨
              (∃ v, way ≤ v ∧ v < way + n ∧ r = ((set_idx * num_ways + v : Nat) : Int) ∧
                mx < (line_at lines (set_idx * num_ways + v)).counter ∧
                (∀ w, way ≤ w → w < v →
                  (line_at lines (set_idx * num_ways + w)).counter <
                    (line_at lines (set_idx * num_ways + v)).counter) ∧
                ∀ w, way ≤ w → w < way + n →
                  (line_at lines (set_idx * num_ways + w)).counter ≤
                    (line_at lines (set_idx * num_ways + v)).counter)))) := by
  intro n
  induction n with
  | zero =>
    intro way mx rep _
    refine ⟨rep, rfl, Or.inr ⟨?_, Or.inl ⟨rfl, ?_⟩⟩⟩
    · intro w h1 h2
      omega
    · intro w h1 h2
      omega
  | succ n ih =>
    intro way mx rep hlen
    have hlt : set_idx * num_ways + way < lines.length := by omega
    cases hv : (line_at lines (set_idx * num_ways + way)).valid with
    | false =>
      refine ⟨((set_idx * num_ways + way : Nat) : Int), ?_, Or.inl ⟨way, le_refl _, by omega,
        rfl, hv, ?_⟩⟩
      · simp [find_replacement_loop, line_at_of_lt hlt, hv]
      · intro w h1 h2
        omega
    | true =>
      by_cases hc : (line_at lines (set_idx * num_ways + way)).counter > mx
      · have hstep : find_replacement_loop lines set_idx num_ways (n + 1) way mx rep =
            find_replacement_loop lines set_idx num_ways n (way + 1)
              (line_at lines (set_idx * num_ways + way)).counter
              ((set_idx * num_ways + way : Nat) : Int) := by
          simp [find_replacement_loop, line_at_of_lt hlt, hv, hc]
        obtain ⟨r, hr, hcase⟩ := ih (way + 1)
          (line_at lines (set_idx * num_ways + way)).counter
          ((set_idx * num_ways + way : Nat) : Int) (by omega)
        refine ⟨r, by rw [hstep]; exact hr, ?_⟩
        rcases hcase with ⟨v, h1, h2, h3, h4, h5⟩ | ⟨hall, hcase⟩
        · left
          refine ⟨v, by omega, by omega, h3, h4, ?_⟩
          intro w hw1 hw2
          by_cases hww : w = way
          · subst hww
            exact hv
          · exact h5 w (by omega) hw2
        · right
          refine ⟨?_, ?_⟩
          · intro w hw1 hw2
            by_cases hww : w = way
            · subst hww
              exact hv
            · exact hall w (by omega) (by omega)
          · rcases hcase with ⟨h1, h2⟩ | ⟨v, h1, h2, h3, h4, h5, h6⟩
            · right
              refine ⟨way, le_refl _, by omega, h1, hc, ?_, ?_⟩
              · intro w hw1 hw2
                omega
              · intro w hw1 hw2
                by_cases hww : w = way
                · subst hww
                  exact le_refl _
                · exact h2 w (by omega) (by omega)
            · right
              refine ⟨v, by omega, by omega, h3, by omega, ?_, ?_⟩
              · intro w hw1 hw2
                by_cases hww : w = way
                · subst hww
                  exact h4
                · exact h5 w (by omega) hw2
              · intro w hw1 hw2
                by_cases hww : w = way
                · subst hww
                  exact le_of_lt h4
                · exact h6 w (by omega) (by omega)
      · have hstep : find_replacement_loop lines set_idx num_ways (n + 1) way mx rep =
            find_replacement_loop lines set_idx num_ways n (way + 1) mx rep := by
          simp [find_replacement_loop, line_at_of_lt hlt, hv, hc]
        obtain ⟨r, hr, hcase⟩ := ih (way + 1) mx rep (by omega)
        refine ⟨r, by rw [hstep]; exact hr, ?_⟩
        rcases hcase with ⟨v, h1, h2, h3, h4, h5⟩ | ⟨hall, hcase⟩
        · left
          refine ⟨v, by omega, by omega, h3, h4, ?_⟩
          intro w hw1 hw2
          by_cases hww : w = way
          · subst hww
            exact hv
          · exact h5 w (by omega) hw2
        · right
          refine ⟨?_, ?_⟩
          · intro w hw1 hw2
            by_cases hww : w = way
            · subst hww
              exact hv
            · exact hall w (by omega) (by omega)
          · rcases hcase with ⟨h1, h2⟩ | ⟨v, h1, h2, h3, h4, h5, h6⟩
            · left
              refine ⟨h1, ?_⟩
              intro w hw1 hw2
              by_cases hww : w = way
              · subst hww
                exact not_lt.1 hc
              · exact h2 w (by omega) (by omega)
            · right
              refine ⟨v, by omega, by omega, h3, h4, ?_, ?_⟩
              · intro w hw1 hw2
                by_cases hww : w = way
                · subst hww
                  exact lt_of_le_of_lt (not_lt.1 hc) h4
                · exact h5 w (by omega) hw2
              · intro w hw1 hw2
                by_cases hww : w = way
                · subst hww
                  exact le_of_lt (lt_of_le_of_lt (not_lt.1 hc) h4)
                · exact h6 w (by omega) (by omega)

/-! ## Index arithmetic -/

theorem set_bound {S W s : Nat} (hs : s < S) : s * W + W ≤ S * W := by
  have h : (s + 1) * W ≤ S * W := Nat.mul_le_mul_right W hs
  rw [Nat.add_mul, Nat.one_mul] at h
  exact h

theorem get_index_lt (a S : Nat) (hS : 1 ≤ S) : get_index a S < S :=
  Nat.mod_lt _ hS

theorem set_way_unique {W s1 w1 s2 w2 : Nat} (h1 : w1 < W) (h2 : w2 < W)
    (h : s1 * W + w1 = s2 * W + w2) : s1 = s2 ∧ w1 = w2 := by
  have hW : 0 < W := by omega
  have e1 : (s1 * W + w1) / W = s1 := by
    rw [Nat.mul_comm, Nat.mul_add_div hW, Nat.div_eq_of_lt h1, Nat.add_zero]
  have e2 : (s2 * W + w2) / W = s2 := by
    rw [Nat.mul_comm, Nat.mul_add_div hW, Nat.div_eq_of_lt h2, Nat.add_zero]
  have e3 : s1 = s2 := by rw [← e1, ← e2, h]
  subst e3
  exact ⟨rfl, by omega⟩

theorem in_set_iff {W s i : Nat} :
    (s * W ≤ i ∧ i < s * W + W) ↔ ∃ w, w < W ∧ i = s * W + w := by
  constructor
  · intro ⟨h1, h2⟩
    exact ⟨i - s * W, by omega, by omega⟩
  · intro ⟨w, h1, h2⟩
    omega

theorem index_lt_length {S W s w : Nat} (hs : s < S) (hw : w < W) : s * W + w < S * W := by
  have := @set_bound S W s hs
  omega

theorem find_replacement_spec (rnd : Nat → Nat) (k : Nat) (c : Cache) (s : Nat)
    (hW : 1 ≤ c.num_ways) (hs : s < c.num_sets) (hinv : Inv c) :
    ∃ v k1, find_replacement rnd k c s = some (((s * c.num_ways + v : Nat) : Int), k1) ∧
      v < c.num_ways ∧
      (c.policy = ReplacementPolicy.RANDOM → v = rnd k % c.num_ways ∧ k1 = k + 1) ∧
      (c.policy = ReplacementPolicy.LRU → k1 = k ∧
        (((line_at c.cache_lines (s * c.num_ways + v)).valid = false ∧
            ∀ w, w < v → (line_at c.cache_lines (s * c.num_ways + w)).valid = true) ∨
          ((∀ w, w < c.num_ways → (line_at c.cache_lines (s * c.num_ways + w)).valid = true) ∧
            (∀ w, w < v → (line_at c.cache_lines (s * c.num_ways + w)).counter <
              (line_at c.cache_lines (s * c.num_ways + v)).counter) ∧
            ∀ w, w < c.num_ways → (line_at c.cache_lines (s * c.num_ways + w)).counter ≤
              (line_at c.cache_lines (s * c.num_ways + v)).counter))) := by
  have hb : s * c.num_ways + c.num_ways ≤ c.cache_lines.length := by
    rw [hinv.1]
    exact set_bound hs
  cases hp : c.policy with
  | RANDOM =>
    have hne : c.num_ways ≠ 0 := by omega
    refine ⟨rnd k % c.num_ways, k + 1, by simp [find_replacement, hp, hne],
      Nat.mod_lt _ hW, fun _ => ⟨rfl, rfl⟩, ?_⟩
    intro h
    cases h
  | LRU =>
    obtain ⟨r, hr, hcase⟩ :=
      find_replacement_loop_spec c.cache_lines s c.num_ways c.num_ways 0 (-1) (-1) (by omega)
    rcases hcase with ⟨v, _, h2, h3, h4, h5⟩ | ⟨hall, ⟨_, h2⟩ | ⟨v, _, h2, h3, _, h5, h6⟩⟩
    · refine ⟨v, k, by simp [find_replacement, hp, hr, h3], by omega, ?_, ?_⟩
      · intro h
        cases h
      · intro _
        exact ⟨rfl, Or.inl ⟨h4, fun w hw => h5 w (Nat.zero_le _) hw⟩⟩
    · exfalso
      obtain ⟨w, hw, hw0⟩ := hinv.2 hp hW s hs (fun w hw => hall w (Nat.zero_le _) (by omega))
      have h0 := h2 w (Nat.zero_le _) (by omega)
      omega
    · refine ⟨v, k, by simp [find_replacement, hp, hr, h3], by omega, ?_, ?_⟩
      · intro h
        cases h
      · intro _
        exact ⟨rfl, Or.inr ⟨fun w hw => hall w (Nat.zero_le _) (by omega),
          fun w hw => h5 w (Nat.zero_le _) hw, fun w hw => h6 w (Nat.zero_le _) (by omega)⟩⟩

theorem access_cache_spec (rnd : Nat → Nat) (k : Nat) (c : Cache) (a : Nat)
    (hS : 1 ≤ c.num_sets) (hW : 1 ≤ c.num_ways) (hinv : Inv c) :
    (∃ w c1, access_cache rnd k c a = some (true, c1, k) ∧ w < c.num_ways ∧
        (line_at c.cache_lines (get_index a c.num_sets * c.num_ways + w)).valid = true ∧
        (line_at c.cache_lines (get_index a c.num_sets * c.num_ways + w)).tag = get_tag a ∧
        (∀ w1, w1 < w →
          ¬ ((line_at c.cache_lines (get_index a c.num_sets * c.num_ways + w1)).valid = true ∧
            (line_at c.cache_lines (get_index a c.num_sets * c.num_ways + w1)).tag =
              get_tag a)) ∧
        SameShape c c1 ∧
        ∀ i, i < c.cache_lines.length →
          line_at c1.cache_lines i =
            touch c.policy (get_index a c.num_sets * c.num_ways) c.num_ways
              (get_index a c.num_sets * c.num_ways + w) i (line_at c.cache_lines i)) ∨
    (∃ v k1 c1, access_cache rnd k c a = some (false, c1, k1) ∧
        find_replacement rnd k c (get_index a c.num_sets) =
          some (((get_index a c.num_sets * c.num_ways + v : Nat) : Int), k1) ∧
        v < c.num_ways ∧
        (∀ w1, w1 < c.num_ways →
          ¬ ((line_at c.cache_lines (get_index a c.num_sets * c.num_ways + w1)).valid = true ∧
            (line_at c.cache_lines (get_index a c.num_sets * c.num_ways + w1)).tag =
              get_tag a)) ∧
        SameShape c c1 ∧
        ∀ i, i < c.cache_lines.length →
          line_at c1.cache_lines i =
            touch c.policy (get_index a c.num_sets * c.num_ways) c.num_ways
              (get_index a c.num_sets * c.num_ways + v) i
              (install (get_tag a) (get_index a c.num_sets * c.num_ways + v) i
                (line_at c.cache_lines i))) := by
  have hs : get_index a c.num_sets < c.num_sets := get_index_lt a _ hS
  have hS0 : c.num_sets ≠ 0 := by omega
  have hb : get_index a c.num_sets * c.num_ways + c.num_ways ≤ c.cache_lines.length := by
    rw [hinv.1]
    exact set_bound hs
  rcases access_cache_loop_spec c.cache_lines (get_tag a) (get_index a c.num_sets) c.num_ways
      c.num_ways 0 (by omega) with ⟨w, h1, _, h3, h4, h5, h6⟩ | ⟨h1, h2⟩
  · left
    obtain ⟨c1, hu, hshape, hlines⟩ :=
      update_counters_spec c (get_index a c.num_sets) w hb (by omega)
    exact ⟨w, c1, by simp [access_cache, hS0, h1, hu], by omega, h4, h5,
      fun w1 hw1 => h6 w1 (Nat.zero_le _) hw1, hshape, hlines⟩
  · right
    obtain ⟨v, k1, hf, hv, _, _⟩ :=
      find_replacement_spec rnd k c (get_index a c.num_sets) hW hs hinv
    have hlt : get_index a c.num_sets * c.num_ways + v < c.cache_lines.length := by omega
    obtain ⟨c2, hu, hshape, hlines⟩ := update_counters_spec
      { c with cache_lines := (c.cache_lines.set (get_index a c.num_sets * c.num_ways + v)
          { line_at c.cache_lines (get_index a c.num_sets * c.num_ways + v) with
            tag := get_tag a, valid := true }) }
      (get_index a c.num_sets) v (by simpa using hb) hv
    have hmod : (get_index a c.num_sets * c.num_ways + v) % c.num_ways = v := by
      rw [Nat.mul_add_mod_of_lt hv]
    refine ⟨v, k1, c2, ?_, hf, hv, fun w1 hw1 => h2 w1 (Nat.zero_le _) (by omega), ?_, ?_⟩
    · have hnn : ¬ (((get_index a c.num_sets * c.num_ways + v : Nat) : Int) < 0) := by omega
      simp only [access_cache, hS0, h1, hf, hnn, if_false, Int.toNat_ofNat, line_at_of_lt hlt,
        hmod]
      simp only [hu]
    · obtain ⟨e1, e2, e3, e4, e5⟩ := hshape
      exact ⟨e1, e2, e3, e4, by simpa using e5⟩
    · intro i hi
      have := hlines i (by simpa using hi)
      rw [this]
      simp only [line_at_set _ _ _ _ hlt, install]
      by_cases hji : get_index a c.num_sets * c.num_ways + v = i
      · subst hji
        simp
      · have hij : i ≠ get_index a c.num_sets * c.num_ways + v := fun h => hji h.symm
        simp [hji, hij]

/-! ## The state invariant -/

theorem touch_valid (p : ReplacementPolicy) (b W j i : Nat) (l : CacheLine) :
    (touch p b W j i l).valid = l.valid := by
  unfold touch
  split_ifs <;> rfl

theorem touch_tag (p : ReplacementPolicy) (b W j i : Nat) (l : CacheLine) :
    (touch p b W j i l).tag = l.tag := by
  unfold touch
  split_ifs <;> rfl

theorem int_incr_eq {x : Int} (h1 : INT_MIN ≤ x) (h2 : x < INT_MAX) : int_incr x = x + 1 := by
  unfold INT_MIN at h1
  unfold INT_MAX at h2
  unfold int_incr
  omega

theorem int_incr_of_nonneg {x : Int} (h1 : 0 ≤ x) (h2 : x < INT_MAX) : int_incr x = x + 1 :=
  int_incr_eq (by unfold INT_MIN; omega) h2

theorem int_incr_range (x : Int) : INT_MIN ≤ int_incr x ∧ int_incr x ≤ INT_MAX := by
  unfold INT_MIN INT_MAX int_incr
  omega

theorem touch_self (b W w : Nat) (l : CacheLine) (hw : w < W) :
    (touch ReplacementPolicy.LRU b W (b + w) (b + w) l).counter = 0 := by
  unfold touch
  rw [if_pos ⟨rfl, by omega, by omega⟩, if_pos rfl]

theorem touch_outside (p : ReplacementPolicy) (b W j i : Nat) (l : CacheLine)
    (h : ¬ (b ≤ i ∧ i < b + W)) : touch p b W j i l = l := by
  unfold touch
  rw [if_neg]
  intro h1
  exact h h1.2

theorem install_self (t j : Nat) (l : CacheLine) :
    (install t j j l).valid = true ∧ (install t j j l).tag = t := by
  simp [install]

theorem install_other (t j i : Nat) (l : CacheLine) (h : i ≠ j) : install t j i l = l := by
  simp [install, h]

theorem sameShape_trans {a b c : Cache} (h1 : SameShape a b) (h2 : SameShape b c) :
    SameShape a c := by
  obtain ⟨a1, a2, a3, a4, a5⟩ := h1
  obtain ⟨b1, b2, b3, b4, b5⟩ := h2
  exact ⟨b1.trans a1, b2.trans a2, b3.trans a3, b4.trans a4, b5.trans a5⟩

theorem sameShape_refl (a : Cache) : SameShape a a :=
  ⟨rfl, rfl, rfl, rfl, rfl⟩

theorem inv_of_lines {c c1 : Cache} (hinv : Inv c) (hshape : SameShape c c1) (s v : Nat)
    (hs : s < c.num_sets) (hv : v < c.num_ways) (g : Nat → CacheLine)
    (hg : ∀ i, i ≠ s * c.num_ways + v → g i = line_at c.cache_lines i)
    (hl : ∀ i, i < c.cache_lines.length →
      line_at c1.cache_lines i =
        touch c.policy (s * c.num_ways) c.num_ways (s * c.num_ways + v) i (g i)) : Inv c1 := by
  obtain ⟨_, e2, e3, e4, e5⟩ := hshape
  refine ⟨by rw [e5, e3, e4]; exact hinv.1, ?_⟩
  rw [e2, e3, e4]
  intro hp hW s1 hs1 hall
  by_cases hss : s1 = s
  · subst hss
    refine ⟨v, hv, ?_⟩
    rw [hl _ (by rw [hinv.1]; exact index_lt_length hs1 hv), hp, touch_self _ _ _ _ hv]
  · have hsame : ∀ w, w < c.num_ways → line_at c1.cache_lines (s1 * c.num_ways + w) =
        line_at c.cache_lines (s1 * c.num_ways + w) := by
      intro w hw
      have hne : s1 * c.num_ways + w ≠ s * c.num_ways + v := fun h =>
        hss (set_way_unique hw hv h).1
      rw [hl _ (by rw [hinv.1]; exact index_lt_length hs1 hw), touch_outside, hg _ hne]
      intro hin
      obtain ⟨w2, hw2, e⟩ := in_set_iff.1 hin
      exact hss (set_way_unique hw hw2 e).1
    obtain ⟨w, hw, h0⟩ := hinv.2 hp hW s1 hs1 (fun w hw => by rw [← hsame w hw]; exact hall w hw)
    exact ⟨w, hw, by rw [hsame w hw]; exact h0⟩

theorem access_cache_total (rnd : Nat → Nat) (k : Nat) (c : Cache) (a : Nat)
    (hS : 1 ≤ c.num_sets) (hW : 1 ≤ c.num_ways) (hinv : Inv c) :
    ∃ hit c1 k1, access_cache rnd k c a = some (hit, c1, k1) ∧ SameShape c c1 ∧ Inv c1 := by
  have hs : get_index a c.num_sets < c.num_sets := get_index_lt a _ hS
  rcases access_cache_spec rnd k c a hS hW hinv with
    ⟨w, c1, h1, hw, _, _, _, hshape, hlines⟩ | ⟨v, k1, c1, h1, _, hv, _, hshape, hlines⟩
  · exact ⟨true, c1, k, h1, hshape, inv_of_lines hinv hshape _ w hs hw
      (fun i => line_at c.cache_lines i) (fun _ _ => rfl) hlines⟩
  · exact ⟨false, c1, k1, h1, hshape, inv_of_lines hinv hshape _ v hs hv
      (fun i => install (get_tag a) (get_index a c.num_sets * c.num_ways + v) i
        (line_at c.cache_lines i)) (fun i hi => install_other _ _ _ _ hi) hlines⟩

theorem access_cache_inv {rnd : Nat → Nat} {k k1 : Nat} {c c1 : Cache} {a : Nat} {hit : Bool}
    (hS : 1 ≤ c.num_sets) (hW : 1 ≤ c.num_ways) (hinv : Inv c)
    (h : access_cache rnd k c a = some (hit, c1, k1)) : SameShape c c1 ∧ Inv c1 := by
  obtain ⟨hit2, c2, k2, h2, hshape, hinv2⟩ := access_cache_total rnd k c a hS hW hinv
  rw [h] at h2
  simp only [Option.some.injEq, Prod.mk.injEq] at h2
  obtain ⟨_, e2, _⟩ := h2
  subst e2
  exact ⟨hshape, hinv2⟩

theorem line_at_replicate (n i : Nat) : line_at (List.replicate n zero_line) i = zero_line := by
  unfold line_at
  rw [List.getElem?_replicate]
  split_ifs <;> rfl

theorem fresh_cache_inv (ty : CacheType) (p : ReplacementPolicy) (S W : Nat) :
    Inv (fresh_cache ty p S W) := by
  refine ⟨by simp [fresh_cache], ?_⟩
  intro _ hW s _ hall
  exfalso
  have h0 := hall 0 hW
  have : (line_at (fresh_cache ty p S W).cache_lines (s * W + 0)).valid = false := by
    show (line_at (List.replicate (S * W) zero_line) _).valid = false
    rw [line_at_replicate]
    rfl
  exact absurd (h0.symm.trans this) (by decide)

theorem configs_eq_fresh (i : Nat) :
    configs i = fresh_cache (configs i).type (configs i).policy (configs i).num_sets
      (configs i).num_ways := rfl

theorem reachable_inv {c0 c : Cache} (hS : 1 ≤ c0.num_sets) (hW : 1 ≤ c0.num_ways)
    (h0 : Inv c0) (hr : Reachable c0 c) : SameShape c0 c ∧ Inv c := by
  induction hr with
  | start => exact ⟨sameShape_refl _, h0⟩
  | step rnd k k1 a hit _ hstep ih =>
    obtain ⟨hshape, hinv⟩ := ih
    have e3 := hshape.2.2.1
    have e4 := hshape.2.2.2.1
    obtain ⟨hs2, hi2⟩ := access_cache_inv (by omega) (by omega) hinv hstep
    exact ⟨sameShape_trans hshape hs2, hi2⟩

/-! ## One access with its outcome, and replay -/

theorem access_outcome_spec (rnd : Nat → Nat) (k : Nat) (c : Cache) (a : Nat)
    (hS : 1 ≤ c.num_sets) (hW : 1 ≤ c.num_ways) (hinv : Inv c) :
    (∃ w c1, access_outcome rnd k c a = some (Outcome.hit, c1, k) ∧
        access_cache rnd k c a = some (true, c1, k) ∧ w < c.num_ways ∧
        (line_at c.cache_lines (get_index a c.num_sets * c.num_ways + w)).valid = true ∧
        (line_at c.cache_lines (get_index a c.num_sets * c.num_ways + w)).tag = get_tag a ∧
        SameShape c c1 ∧ Inv c1 ∧
        ∀ i, i < c.cache_lines.length →
          line_at c1.cache_lines i =
            touch c.policy (get_index a c.num_sets * c.num_ways) c.num_ways
              (get_index a c.num_sets * c.num_ways + w) i (line_at c.cache_lines i)) ∨
    (∃ v k1 c1, access_outcome rnd k c a =
          some (Outcome.miss ((get_index a c.num_sets * c.num_ways + v : Nat) : Int), c1, k1) ∧
        access_cache rnd k c a = some (false, c1, k1) ∧
        find_replacement rnd k c (get_index a c.num_sets) =
          some (((get_index a c.num_sets * c.num_ways + v : Nat) : Int), k1) ∧
        v < c.num_ways ∧
        (∀ w1, w1 < c.num_ways →
          ¬ ((line_at c.cache_lines (get_index a c.num_sets * c.num_ways + w1)).valid = true ∧
            (line_at c.cache_lines (get_index a c.num_sets * c.num_ways + w1)).tag =
              get_tag a)) ∧
        SameShape c c1 ∧ Inv c1 ∧
        ∀ i, i < c.cache_lines.length →
          line_at c1.cache_lines i =
            touch c.policy (get_index a c.num_sets * c.num_ways) c.num_ways
              (get_index a c.num_sets * c.num_ways + v) i
              (install (get_tag a) (get_index a c.num_sets * c.num_ways + v) i
                (line_at c.cache_lines i))) := by
  rcases access_cache_spec rnd k c a hS hW hinv with
    ⟨w, c1, h1, h2, h3, h4, _, hshape, hlines⟩ | ⟨v, k1, c1, h1, h2, h3, h4, hshape, hlines⟩
  · left
    exact ⟨w, c1, by simp [access_outcome, h1], h1, h2, h3, h4, hshape,
      (access_cache_inv hS hW hinv h1).2, hlines⟩
  · right
    exact ⟨v, k1, c1, by simp [access_outcome, h1, h2], h1, h2, h3, h4, hshape,
      (access_cache_inv hS hW hinv h1).2, hlines⟩

theorem replay_cons (rnd : Nat → Nat) (k : Nat) (c : Cache) (a : Nat) (rest : List Nat) :
    replay rnd k c (a :: rest) =
      match access_outcome rnd k c a with
      | none => none
      | some (o, c1, k1) =>
        match replay rnd k1 c1 rest with
        | none => none
        | some (os, c2, k2) => some (o :: os, c2, k2) := rfl

theorem replay_append (rnd : Nat → Nat) (tr1 tr2 : List Nat) :
    ∀ (k : Nat) (c : Cache),
      replay rnd k c (tr1 ++ tr2) =
        match replay rnd k c tr1 with
        | none => none
        | some (os, c1, k1) =>
          match replay rnd k1 c1 tr2 with
          | none => none
          | some (os2, c2, k2) => some (os ++ os2, c2, k2) := by
  induction tr1 with
  | nil =>
    intro k c
    rw [List.nil_append]
    show _ = match replay rnd k c tr2 with
      | none => none
      | some (os2, c2, k2) => some ([] ++ os2, c2, k2)
    cases replay rnd k c tr2 with
    | none => rfl
    | some r => rfl
  | cons a rest ih =>
    intro k c
    rw [List.cons_append, replay_cons, replay_cons]
    cases access_outcome rnd k c a with
    | none => rfl
    | some r =>
      obtain ⟨o, c1, k1⟩ := r
      simp only [ih k1 c1]
      cases replay rnd k1 c1 rest with
      | none => rfl
      | some r1 =>
        obtain ⟨os, c2, k2⟩ := r1
        simp only
        cases replay rnd k2 c2 tr2 with
        | none => rfl
        | some r2 => rfl

theorem replay_single (rnd : Nat → Nat) (k : Nat) (c : Cache) (a : Nat) :
    replay rnd k c [a] =
      match access_outcome rnd k c a with
      | none => none
      | some (o, c1, k1) => some ([o], c1, k1) := by
  rw [replay_cons]
  cases access_outcome rnd k c a with
  | none => rfl
  | some r => rfl

theorem shaped_length {c : Cache} {p : ReplacementPolicy} {S W : Nat} (h : Shaped c p S W) :
    c.cache_lines.length = S * W := by
  obtain ⟨_, h2, h3, h4, _⟩ := h
  rw [h4, h2, h3]

theorem shaped_of_same {c c1 : Cache} {p : ReplacementPolicy} {S W : Nat}
    (h : Shaped c p S W) (hs : SameShape c c1) (hi : Inv c1) : Shaped c1 p S W := by
  obtain ⟨h1, h2, h3, _⟩ := h
  obtain ⟨_, e2, e3, e4, _⟩ := hs
  exact ⟨e2.trans h1, e3.trans h2, e4.trans h3, hi⟩

theorem fresh_cache_shaped (ty : CacheType) (p : ReplacementPolicy) (S W : Nat) :
    Shaped (fresh_cache ty p S W) p S W :=
  ⟨rfl, rfl, rfl, fresh_cache_inv ty p S W⟩

theorem step_spec (rnd : Nat → Nat) (k : Nat) (c : Cache) (a : Nat) (p : ReplacementPolicy)
    (S W : Nat) (hS : 1 ≤ S) (hW : 1 ≤ W) (hc : Shaped c p S W) :
    (∃ w c1, access_outcome rnd k c a = some (Outcome.hit, c1, k) ∧
        access_cache rnd k c a = some (true, c1, k) ∧ w < W ∧
        holds c.cache_lines (get_index a S * W + w) (get_tag a) ∧
        Shaped c1 p S W ∧
        ∀ i, i < S * W →
          line_at c1.cache_lines i =
            touch p (get_index a S * W) W (get_index a S * W + w) i (line_at c.cache_lines i)) ∨
    (∃ v k1 c1, access_outcome rnd k c a =
          some (Outcome.miss ((get_index a S * W + v : Nat) : Int), c1, k1) ∧
        access_cache rnd k c a = some (false, c1, k1) ∧
        find_replacement rnd k c (get_index a S) =
          some (((get_index a S * W + v : Nat) : Int), k1) ∧
        v < W ∧
        (∀ w1, w1 < W → ¬ holds c.cache_lines (get_index a S * W + w1) (get_tag a)) ∧
        Shaped c1 p S W ∧
        ∀ i, i < S * W →
          line_at c1.cache_lines i =
            touch p (get_index a S * W) W (get_index a S * W + v) i
              (install (get_tag a) (get_index a S * W + v) i (line_at c.cache_lines i))) := by
  have hlen := shaped_length hc
  obtain ⟨h1, h2, h3, hinv⟩ := hc
  have hc : Shaped c p S W := ⟨h1, h2, h3, hinv⟩
  subst h1 h2 h3
  rcases access_outcome_spec rnd k c a hS hW hinv with
    ⟨w, c1, e1, e2, e3, e4, e5, e6, e7, e8⟩ | ⟨v, k1, c1, e1, e2, e3, e4, e5, e6, e7, e8⟩
  · left
    exact ⟨w, c1, e1, e2, e3, ⟨e4, e5⟩, shaped_of_same hc e6 e7, fun i hi => e8 i (by omega)⟩
  · right
    exact ⟨v, k1, c1, e1, e2, e3, e4, e5, shaped_of_same hc e6 e7, fun i hi => e8 i (by omega)⟩

theorem victim_spec (rnd : Nat → Nat) (k : Nat) (c : Cache) (s : Nat) (p : ReplacementPolicy)
    (S W v k1 : Nat) (hW : 1 ≤ W) (hs : s < S) (hc : Shaped c p S W)
    (hf : find_replacement rnd k c s = some (((s * W + v : Nat) : Int), k1)) :
    v < W ∧
    (p = ReplacementPolicy.RANDOM → v = rnd k % W ∧ k1 = k + 1) ∧
    (p = ReplacementPolicy.LRU → k1 = k ∧
      (((line_at c.cache_lines (s * W + v)).valid = false ∧
          ∀ w, w < v → (line_at c.cache_lines (s * W + w)).valid = true) ∨
        ((∀ w, w < W → (line_at c.cache_lines (s * W + w)).valid = true) ∧
          (∀ w, w < v → (line_at c.cache_lines (s * W + w)).counter <
            (line_at c.cache_lines (s * W + v)).counter) ∧
          ∀ w, w < W → (line_at c.cache_lines (s * W + w)).counter ≤
            (line_at c.cache_lines (s * W + v)).counter))) := by
  obtain ⟨h1, h2, h3, hinv⟩ := hc
  subst h1 h2 h3
  obtain ⟨v2, k2, e1, e2, e3, e4⟩ := find_replacement_spec rnd k c s hW hs hinv
  rw [hf] at e1
  simp only [Option.some.injEq, Prod.mk.injEq, Nat.cast_inj] at e1
  obtain ⟨e5, e6⟩ := e1
  have e7 : v = v2 := by omega
  subst e6 e7
  exact ⟨e2, e3, e4⟩

/-! ## Index arithmetic, degenerate geometries -/

theorem reachable_shaped {ty : CacheType} {p : ReplacementPolicy} {S W : Nat} {c : Cache}
    (hS : 1 ≤ S) (hW : 1 ≤ W) (hr : Reachable (fresh_cache ty p S W) c) : Shaped c p S W := by
  obtain ⟨h1, h2⟩ := @reachable_inv (fresh_cache ty p S W) c hS hW
    (fresh_cache_inv ty p S W) hr
  exact shaped_of_same (fresh_cache_shaped ty p S W) h1 h2

theorem access_cache_cases {rnd : Nat → Nat} {k k1 : Nat} {c c1 : Cache} {a : Nat} {hit : Bool}
    {p : ReplacementPolicy} {S W : Nat} (hS : 1 ≤ S) (hW : 1 ≤ W) (hc : Shaped c p S W)
    (h : access_cache rnd k c a = some (hit, c1, k1)) :
    Shaped c1 p S W ∧
    ((hit = true ∧ ∃ w, w < W ∧ holds c.cache_lines (get_index a S * W + w) (get_tag a) ∧
        ∀ i, i < S * W →
          line_at c1.cache_lines i =
            touch p (get_index a S * W) W (get_index a S * W + w) i (line_at c.cache_lines i)) ∨
      (hit = false ∧ ∃ v, v < W ∧
        find_replacement rnd k c (get_index a S) =
          some (((get_index a S * W + v : Nat) : Int), k1) ∧
        (∀ w1, w1 < W → ¬ holds c.cache_lines (get_index a S * W + w1) (get_tag a)) ∧
        ∀ i, i < S * W →
          line_at c1.cache_lines i =
            touch p (get_index a S * W) W (get_index a S * W + v) i
              (install (get_tag a) (get_index a S * W + v) i (line_at c.cache_lines i)))) := by
  rcases step_spec rnd k c a p S W hS hW hc with
    ⟨w, c2, _, e2, e3, e4, e5, e6⟩ | ⟨v, k2, c2, _, e2, e3, e4, e5, e6, e7⟩
  · rw [h] at e2
    simp only [Option.some.injEq, Prod.mk.injEq] at e2
    obtain ⟨r1, r2, _⟩ := e2
    subst r1 r2
    exact ⟨e5, Or.inl ⟨rfl, w, e3, e4, e6⟩⟩
  · rw [h] at e2
    simp only [Option.some.injEq, Prod.mk.injEq] at e2
    obtain ⟨r1, r2, r3⟩ := e2
    subst r1 r2 r3
    exact ⟨e6, Or.inr ⟨rfl, v, e4, e3, e5, e7⟩⟩

/-! ## Replay and reachability -/

theorem replay_length {rnd : Nat → Nat} :
    ∀ {tr : List Nat} {k : Nat} {c : Cache} {os : List Outcome} {c1 : Cache} {k1 : Nat},
      replay rnd k c tr = some (os, c1, k1) → os.length = tr.length := by
  intro tr
  induction tr with
  | nil =>
    intro k c os c1 k1 h
    simp only [replay, Option.some.injEq, Prod.mk.injEq] at h
    rw [← h.1]
    rfl
  | cons a rest ih =>
    intro k c os c1 k1 h
    rw [replay_cons] at h
    cases ho : access_outcome rnd k c a with
    | none =>
      rw [ho] at h
      cases h
    | some r =>
      obtain ⟨o, c2, k2⟩ := r
      rw [ho] at h
      simp only at h
      cases hr : replay rnd k2 c2 rest with
      | none =>
        rw [hr] at h
        cases h
      | some r2 =>
        obtain ⟨os2, c3, k3⟩ := r2
        rw [hr] at h
        simp only [Option.some.injEq, Prod.mk.injEq] at h
        rw [← h.1, List.length_cons, List.length_cons, ih hr]

/-! ## Hits and the history of misses -/

theorem getElem?_snoc {α : Type} (l : List α) (x : α) (M : Nat) :
    (l ++ [x])[M]? = if M < l.length then l[M]? else if M = l.length then some x else none := by
  by_cases h : M < l.length
  · rw [if_pos h, List.getElem?_append_left h]
  · rw [if_neg h, List.getElem?_append_right (by omega)]
    by_cases h2 : M = l.length
    · rw [if_pos h2, h2]
      simp
    · rw [if_neg h2]
      apply List.getElem?_eq_none
      simp only [List.length_singleton]
      omega

theorem getElem?_snoc_lt {α : Type} (l : List α) (x : α) {M : Nat} (h : M < l.length) :
    (l ++ [x])[M]? = l[M]? := by
  rw [getElem?_snoc, if_pos h]

theorem getElem?_snoc_eq {α : Type} (l : List α) (x : α) : (l ++ [x])[l.length]? = some x := by
  rw [getElem?_snoc, if_neg (lt_irrefl _), if_pos rfl]

theorem lt_length_of_getElem? {α : Type} {l : List α} {M : Nat} {x : α} (h : l[M]? = some x) :
    M < l.length := by
  obtain ⟨h1, _⟩ := List.getElem?_eq_some.1 h
  exact h1

theorem installed_snoc (S : Nat) (tr : List Nat) (os : List Outcome) (a : Nat) (o : Outcome)
    (N aN : Nat) (hlen : os.length = tr.length) (hN : N ≤ os.length) :
    Installed S (tr ++ [a]) (os ++ [o]) N aN ↔ Installed S tr os N aN := by
  constructor
  · rintro ⟨M, aM, v, h1, h2, h3, h4, h5, h6⟩
    refine ⟨M, aM, v, h1, ?_, ?_, h4, h5, ?_⟩
    · rwa [getElem?_snoc_lt _ _ (by omega)] at h2
    · rwa [getElem?_snoc_lt _ _ (by omega)] at h3
    · intro j hj1 hj2
      have := h6 j hj1 hj2
      rwa [getElem?_snoc_lt _ _ (by omega)] at this
  · rintro ⟨M, aM, v, h1, h2, h3, h4, h5, h6⟩
    refine ⟨M, aM, v, h1, ?_, ?_, h4, h5, ?_⟩
    · rwa [getElem?_snoc_lt _ _ (by omega)]
    · rwa [getElem?_snoc_lt _ _ (by omega)]
    · intro j hj1 hj2
      rw [getElem?_snoc_lt _ _ (by omega)]
      exact h6 j hj1 hj2

theorem victims_snoc_hit (S W : Nat) (tr : List Nat) (os : List Outcome) (a : Nat)
    (hlen : os.length = tr.length) (h : VictimsInSet S W tr os) :
    VictimsInSet S W (tr ++ [a]) (os ++ [Outcome.hit]) := by
  intro M v hM
  rw [getElem?_snoc] at hM
  by_cases h1 : M < os.length
  · rw [if_pos h1] at hM
    obtain ⟨aM, w, e1, e2, e3⟩ := h M v hM
    exact ⟨aM, w, by rwa [getElem?_snoc_lt _ _ (by omega)], e2, e3⟩
  · rw [if_neg h1] at hM
    split_ifs at hM
    cases hM

theorem victims_snoc_miss (S W : Nat) (tr : List Nat) (os : List Outcome) (a v : Nat)
    (hv : v < W) (hlen : os.length = tr.length) (h : VictimsInSet S W tr os) :
    VictimsInSet S W (tr ++ [a])
      (os ++ [Outcome.miss ((get_index a S * W + v : Nat) : Int)]) := by
  intro M v1 hM
  rw [getElem?_snoc] at hM
  by_cases h1 : M < os.length
  · rw [if_pos h1] at hM
    obtain ⟨aM, w, e1, e2, e3⟩ := h M v1 hM
    exact ⟨aM, w, by rwa [getElem?_snoc_lt _ _ (by omega)], e2, e3⟩
  · rw [if_neg h1] at hM
    by_cases h2 : M = os.length
    · rw [if_pos h2] at hM
      simp only [Option.some.injEq, Outcome.miss.injEq] at hM
      refine ⟨a, v, ?_, hv, hM.symm⟩
      rw [h2, hlen]
      exact getElem?_snoc_eq _ _
    · rw [if_neg h2] at hM
      cases hM

theorem last_install_snoc_other (tr : List Nat) (os : List Outcome) (a : Nat) (o : Outcome)
    (i t : Nat) (hlen : os.length = tr.length) (ho : o ≠ Outcome.miss (i : Int)) :
    LastInstall (tr ++ [a]) (os ++ [o]) i t ↔ LastInstall tr os i t := by
  constructor
  · rintro ⟨M, aM, h1, h2, h3, h4⟩
    have hM : M < os.length := by
      rw [getElem?_snoc] at h1
      by_contra hcon
      rw [if_neg hcon] at h1
      split_ifs at h1
      simp only [Option.some.injEq] at h1
      exact ho h1
    refine ⟨M, aM, ?_, ?_, h3, ?_⟩
    · rwa [getElem?_snoc_lt _ _ hM] at h1
    · rwa [getElem?_snoc_lt _ _ (by omega)] at h2
    · intro j hj
      by_cases hjn : j < os.length
      · have := h4 j hj
        rwa [getElem?_snoc_lt _ _ hjn] at this
      · rw [List.getElem?_eq_none (by omega)]
        exact fun h => by cases h
  · rintro ⟨M, aM, h1, h2, h3, h4⟩
    have hM : M < os.length := lt_length_of_getElem? h1
    refine ⟨M, aM, ?_, ?_, h3, ?_⟩
    · rwa [getElem?_snoc_lt _ _ hM]
    · rwa [getElem?_snoc_lt _ _ (by omega)]
    · intro j hj
      rw [getElem?_snoc]
      by_cases hjn : j < os.length
      · rw [if_pos hjn]
        exact h4 j hj
      · rw [if_neg hjn]
        split_ifs
        · intro h
          simp only [Option.some.injEq] at h
          exact ho h
        · exact fun h => by cases h

theorem last_install_snoc_self (tr : List Nat) (os : List Outcome) (a : Nat) (i t : Nat)
    (hlen : os.length = tr.length) :
    LastInstall (tr ++ [a]) (os ++ [Outcome.miss (i : Int)]) i t ↔ t = get_tag a := by
  constructor
  · rintro ⟨M, aM, h1, h2, h3, h4⟩
    have hM : M = os.length := by
      by_contra hcon
      have hlt : M < os.length := by
        have := lt_length_of_getElem? h1
        simp only [List.length_append, List.length_singleton] at this
        omega
      exact h4 os.length hlt (getElem?_snoc_eq _ _)
    rw [hM, hlen, getElem?_snoc_eq] at h2
    simp only [Option.some.injEq] at h2
    rw [← h3, h2]
  · intro ht
    refine ⟨os.length, a, getElem?_snoc_eq _ _, ?_, ht.symm, ?_⟩
    · rw [hlen]
      exact getElem?_snoc_eq _ _
    · intro j hj
      rw [List.getElem?_eq_none]
      · exact fun h => by cases h
      · simp only [List.length_append, List.length_singleton]
        omega

theorem holds_step_hit {p : ReplacementPolicy} {b W j i t : Nat} {l1 l : CacheLine}
    (h : l1 = touch p b W j i l) :
    (l1.valid = true ∧ l1.tag = t) ↔ (l.valid = true ∧ l.tag = t) := by
  rw [h, touch_valid, touch_tag]

theorem replay_history (ty : CacheType) (p : ReplacementPolicy) (S W : Nat) (hS : 1 ≤ S)
    (hW : 1 ≤ W) (rnd : Nat → Nat) (k0 : Nat) (tr : List Nat) :
    ∃ os c k, replay rnd k0 (fresh_cache ty p S W) tr = some (os, c, k) ∧
      os.length = tr.length ∧ Shaped c p S W ∧ VictimsInSet S W tr os ∧
      (∀ i t, i < S * W → (holds c.cache_lines i t ↔ LastInstall tr os i t)) ∧
      ∀ N aN, tr[N]? = some aN → (os[N]? = some Outcome.hit ↔ Installed S tr os N aN) := by
  induction tr using List.reverseRecOn with
  | nil =>
    refine ⟨[], fresh_cache ty p S W, k0, rfl, rfl, fresh_cache_shaped ty p S W, ?_, ?_, ?_⟩
    · intro M v h
      simp at h
    · intro i t _
      constructor
      · intro h
        have : (line_at (fresh_cache ty p S W).cache_lines i).valid = false := by
          show (line_at (List.replicate (S * W) zero_line) _).valid = false
          rw [line_at_replicate]
          rfl
        rw [holds, this] at h
        exact absurd h.1 (by decide)
      · rintro ⟨M, aM, h, _⟩
        simp at h
    · intro N aN h
      simp at h
  | append_singleton tr a ih =>
    obtain ⟨os, c, k, hrep, hlen, hc, hvic, hlast, hhit⟩ := ih
    have hs : get_index a S < S := get_index_lt a S hS
    have hrep2 : ∀ o c1 k1, access_outcome rnd k c a = some (o, c1, k1) →
        replay rnd k0 (fresh_cache ty p S W) (tr ++ [a]) = some (os ++ [o], c1, k1) := by
      intro o c1 k1 ho
      rw [replay_append, hrep]
      simp only [replay_single, ho]
    have hold : ∀ o N aN, N < tr.length → (tr ++ [a])[N]? = some aN →
        ((os ++ [o])[N]? = some Outcome.hit ↔ Installed S (tr ++ [a]) (os ++ [o]) N aN) := by
      intro o N aN hN haN
      rw [getElem?_snoc_lt _ _ hN] at haN
      rw [getElem?_snoc_lt _ _ (by omega), installed_snoc S tr os a o N aN hlen (by omega)]
      exact hhit N aN haN
    have hnew : ∀ N aN, (tr ++ [a])[N]? = some aN → ¬ N < tr.length →
        N = os.length ∧ aN = a := by
      intro N aN haN hN
      have h1 := lt_length_of_getElem? haN
      simp only [List.length_append, List.length_singleton] at h1
      have h2 : N = tr.length := by omega
      rw [h2, getElem?_snoc_eq] at haN
      simp only [Option.some.injEq] at haN
      exact ⟨by omega, haN.symm⟩
    rcases step_spec rnd k c a p S W hS hW hc with
      ⟨w, c1, ho, _, hw, hh, hc1, hl⟩ | ⟨v, k1, c1, ho, _, _, hv, hno, hc1, hl⟩
    · -- a hit
      refine ⟨os ++ [Outcome.hit], c1, k, hrep2 _ _ _ ho, by simp [hlen], hc1,
        victims_snoc_hit S W tr os a hlen hvic, ?_, ?_⟩
      · intro i t hi
        rw [last_install_snoc_other tr os a Outcome.hit i t hlen (fun h => by cases h),
          ← hlast i t hi]
        exact holds_step_hit (hl i hi)
      · intro N aN haN
        by_cases hN : N < tr.length
        · exact hold _ N aN hN haN
        · obtain ⟨e1, e2⟩ := hnew N aN haN hN
          subst e1 e2
          rw [getElem?_snoc_eq, installed_snoc S tr os aN Outcome.hit _ aN hlen (le_refl _)]
          refine iff_of_true rfl ?_
          have hi := index_lt_length hs hw
          obtain ⟨M, aM, h1, h2, h3, h4⟩ := (hlast _ _ hi).1 hh
          obtain ⟨aM2, w2, g1, g2, g3⟩ := hvic M _ h1
          rw [h2] at g1
          simp only [Option.some.injEq] at g1
          subst g1
          have g4 : get_index aN S * W + w = get_index aM S * W + w2 := by omega
          obtain ⟨g5, _⟩ := set_way_unique hw g2 g4
          exact ⟨M, aM, _, lt_length_of_getElem? h1, h2, h1, h3, g5.symm,
            fun j hj1 _ => h4 j hj1⟩
    · -- a miss
      refine ⟨os ++ [Outcome.miss ((get_index a S * W + v : Nat) : Int)], c1, k1,
        hrep2 _ _ _ ho, by simp [hlen], hc1, victims_snoc_miss S W tr os a v hv hlen hvic,
        ?_, ?_⟩
      · intro i t hi
        by_cases hiv : i = get_index a S * W + v
        · subst hiv
          rw [last_install_snoc_self tr os a _ t hlen, holds, hl _ hi, touch_valid, touch_tag]
          have e2 := install_self (get_tag a) (get_index a S * W + v)
            (line_at c.cache_lines (get_index a S * W + v))
          rw [e2.1, e2.2]
          constructor
          · intro h
            exact h.2.symm
          · intro h
            exact ⟨rfl, h.symm⟩
        · have hne : Outcome.miss ((get_index a S * W + v : Nat) : Int) ≠
              Outcome.miss (i : Int) := by
            intro h
            simp only [Outcome.miss.injEq, Nat.cast_inj] at h
            exact hiv h.symm
          rw [last_install_snoc_other tr os a _ i t hlen hne, ← hlast i t hi, holds,
            hl i hi, touch_valid, touch_tag, install_other _ _ _ _ hiv]
          exact Iff.rfl
      · intro N aN haN
        by_cases hN : N < tr.length
        · exact hold _ N aN hN haN
        · obtain ⟨e1, e2⟩ := hnew N aN haN hN
          subst e1 e2
          rw [getElem?_snoc_eq, installed_snoc S tr os aN _ _ aN hlen (le_refl _)]
          refine iff_of_false (fun h => by cases h) ?_
          rintro ⟨M, aM, v1, h1, h2, h3, h4, h5, h6⟩
          obtain ⟨aM2, w2, g1, g2, g3⟩ := hvic M _ h3
          rw [h2] at g1
          simp only [Option.some.injEq] at g1
          subst g1 g3
          rw [h5] at h3 h6
          have hi := index_lt_length hs g2
          refine hno w2 g2 ((hlast _ _ hi).2 ⟨M, aM, h3, h2, h4, ?_⟩)
          intro j hj
          by_cases hjn : j < os.length
          · exact h6 j hj hjn
          · rw [List.getElem?_eq_none (by omega)]
            exact fun h => by cases h

/-! ## LRU sets and the reference LRU cache -/

theorem map_erase_of_nodup {f : Nat → Nat} :
    ∀ (ws : List Nat) (w0 : Nat), (ws.map f).Nodup → w0 ∈ ws →
      (ws.erase w0).map f = (ws.map f).erase (f w0) := by
  intro ws
  induction ws with
  | nil =>
    intro w0 _ h
    cases h
  | cons x xs ih =>
    intro w0 hnd hmem
    rw [List.map_cons, List.nodup_cons] at hnd
    by_cases hx : x = w0
    · subst hx
      rw [List.erase_cons_head, List.map_cons, List.erase_cons_head]
    · have hin : w0 ∈ xs := by
        rcases List.mem_cons.1 hmem with h | h
        · exact absurd h.symm hx
        · exact h
      have hfx : f x ≠ f w0 := by
        intro heq
        apply hnd.1
        rw [heq]
        exact List.mem_map.2 ⟨w0, hin, rfl⟩
      rw [List.erase_cons_tail (by simpa using hx), List.map_cons, List.map_cons,
        List.erase_cons_tail (by simpa using hfx), ih w0 hnd.2 hin]

theorem length_le_of_nodup_lt {ws : List Nat} {W : Nat} (hnd : ws.Nodup)
    (h : ∀ w, w ∈ ws → w < W) : ws.length ≤ W := by
  have hsub : ws ⊆ List.range W := fun w hw => List.mem_range.2 (h w hw)
  have := (List.Nodup.subperm hnd hsub).length_le
  rwa [List.length_range] at this

theorem le_length_of_all_mem {ws : List Nat} {W : Nat} (h : ∀ w, w < W → w ∈ ws) :
    W ≤ ws.length := by
  have hsub : List.range W ⊆ ws := fun w hw => h w (List.mem_range.1 hw)
  have := (List.Nodup.subperm (List.nodup_range W) hsub).length_le
  rwa [List.length_range] at this

theorem touch_in_set (b W j w : Nat) (l : CacheLine) (hw : w < W) :
    touch ReplacementPolicy.LRU b W (b + j) (b + w) l =
      if w = j then { l with counter := 0 } else { l with counter := int_incr l.counter } := by
  unfold touch
  rw [if_pos ⟨rfl, by omega, by omega⟩]
  by_cases h : w = j
  · rw [if_pos h, if_pos (by rw [h])]
  · rw [if_neg h, if_neg (by omega)]

theorem set_after_access {rnd : Nat → Nat} {k k1 : Nat} {c c1 : Cache} {a : Nat} {hit : Bool}
    {S W : Nat} (hS : 1 ≤ S) (hW : 1 ≤ W) (hc : Shaped c ReplacementPolicy.LRU S W)
    (h : access_cache rnd k c a = some (hit, c1, k1)) :
    ∃ j, j < W ∧
      (hit = true → holds c.cache_lines (get_index a S * W + j) (get_tag a)) ∧
      (hit = false → find_replacement rnd k c (get_index a S) =
        some (((get_index a S * W + j : Nat) : Int), k1)) ∧
      (set_view c1.cache_lines (get_index a S * W) j).valid = true ∧
      (set_view c1.cache_lines (get_index a S * W) j).tag = get_tag a ∧
      (set_view c1.cache_lines (get_index a S * W) j).counter = 0 ∧
      ∀ w, w < W → w ≠ j →
        (set_view c1.cache_lines (get_index a S * W) w).valid =
          (set_view c.cache_lines (get_index a S * W) w).valid ∧
        (set_view c1.cache_lines (get_index a S * W) w).tag =
          (set_view c.cache_lines (get_index a S * W) w).tag ∧
        (set_view c1.cache_lines (get_index a S * W) w).counter =
          int_incr (set_view c.cache_lines (get_index a S * W) w).counter := by
  have hs : get_index a S < S := get_index_lt a S hS
  obtain ⟨_, hcase⟩ := access_cache_cases hS hW hc h
  rcases hcase with ⟨e, w0, hw0, hh, hl⟩ | ⟨e, v, hv, hf, _, hl⟩
  · refine ⟨w0, hw0, fun _ => hh, fun h2 => (by rw [e] at h2; cases h2), ?_, ?_, ?_, ?_⟩
    · show (line_at c1.cache_lines _).valid = true
      rw [hl _ (index_lt_length hs hw0), touch_valid]
      exact hh.1
    · show (line_at c1.cache_lines _).tag = _
      rw [hl _ (index_lt_length hs hw0), touch_tag]
      exact hh.2
    · show (line_at c1.cache_lines _).counter = 0
      rw [hl _ (index_lt_length hs hw0), touch_in_set _ _ _ _ _ hw0, if_pos rfl]
    · intro w hw hne
      show (line_at c1.cache_lines _).valid = _ ∧ (line_at c1.cache_lines _).tag = _ ∧
        (line_at c1.cache_lines _).counter = _
      rw [hl _ (index_lt_length hs hw), touch_in_set _ _ _ _ _ hw, if_neg hne]
      exact ⟨rfl, rfl, rfl⟩
  · have e2 := install_self (get_tag a) (get_index a S * W + v)
      (line_at c.cache_lines (get_index a S * W + v))
    refine ⟨v, hv, fun h2 => (by rw [e] at h2; cases h2), fun _ => hf, ?_, ?_, ?_, ?_⟩
    · show (line_at c1.cache_lines _).valid = true
      rw [hl _ (index_lt_length hs hv), touch_valid]
      exact e2.1
    · show (line_at c1.cache_lines _).tag = _
      rw [hl _ (index_lt_length hs hv), touch_tag]
      exact e2.2
    · show (line_at c1.cache_lines _).counter = 0
      rw [hl _ (index_lt_length hs hv), touch_in_set _ _ _ _ _ hv, if_pos rfl]
    · intro w hw hne
      show (line_at c1.cache_lines _).valid = _ ∧ (line_at c1.cache_lines _).tag = _ ∧
        (line_at c1.cache_lines _).counter = _
      rw [hl _ (index_lt_length hs hw), touch_in_set _ _ _ _ _ hw, if_neg hne,
        install_other _ _ _ _ (by omega)]
      exact ⟨rfl, rfl, rfl⟩

theorem lru_rel_after (f f1 : Nat → CacheLine) (W j t : Nat) (rest : List Nat)
    (hj : j < W) (hnd : rest.Nodup) (hjr : j ∉ rest)
    (hmem : ∀ w, w ∈ rest ↔ w < W ∧ w ≠ j ∧ (f w).valid = true)
    (htags : (rest.map (fun w => (f w).tag)).Nodup)
    (ht : t ∉ rest.map (fun w => (f w).tag))
    (hpw : rest.Pairwise (fun a b => (f a).counter < (f b).counter))
    (hnn : ∀ w, w < W → (f w).valid = true → 0 ≤ (f w).counter ∧ (f w).counter < INT_MAX)
    (h1j : (f1 j).valid = true ∧ (f1 j).tag = t ∧ (f1 j).counter = 0)
    (h1o : ∀ w, w < W → w ≠ j → (f1 w).valid = (f w).valid ∧ (f1 w).tag = (f w).tag ∧
      (f1 w).counter = int_incr (f w).counter) :
    LruRel f1 W (t :: rest.map (fun w => (f w).tag)) := by
  have hmap : rest.map (fun w => (f1 w).tag) = rest.map (fun w => (f w).tag) := by
    apply List.map_congr_left
    intro w hw
    obtain ⟨a1, a2, _⟩ := (hmem w).1 hw
    exact (h1o w a1 a2).2.1
  have hcnt : ∀ w, w ∈ rest → 0 ≤ (f w).counter ∧ (f1 w).counter = (f w).counter + 1 := by
    intro w hw
    obtain ⟨a1, a2, a3⟩ := (hmem w).1 hw
    obtain ⟨b1, b2⟩ := hnn w a1 a3
    exact ⟨b1, by rw [(h1o w a1 a2).2.2, int_incr_of_nonneg b1 b2]⟩
  refine ⟨j :: rest, List.nodup_cons.2 ⟨hjr, hnd⟩, ?_, ?_, List.nodup_cons.2 ⟨ht, htags⟩, ?_⟩
  · intro w
    rw [List.mem_cons]
    constructor
    · rintro (h | h)
      · subst h
        exact ⟨hj, h1j.1⟩
      · obtain ⟨a1, a2, a3⟩ := (hmem w).1 h
        exact ⟨a1, by rw [(h1o w a1 a2).1]; exact a3⟩
    · rintro ⟨a1, a3⟩
      by_cases hw : w = j
      · exact Or.inl hw
      · right
        rw [(h1o w a1 hw).1] at a3
        exact (hmem w).2 ⟨a1, hw, a3⟩
  · rw [List.map_cons, h1j.2.1, hmap]
  · rw [List.pairwise_cons]
    constructor
    · intro w hw
      obtain ⟨b1, b2⟩ := hcnt w hw
      rw [h1j.2.2, b2]
      omega
    · refine List.Pairwise.imp_of_mem ?_ hpw
      intro a b ha hb hab
      rw [(hcnt a ha).2, (hcnt b hb).2]
      omega

theorem valid_bound_after {rnd : Nat → Nat} {k k1 : Nat} {c c1 : Cache} {a : Nat} {hit : Bool}
    {S W : Nat} (hS : 1 ≤ S) (hW : 1 ≤ W) (hc : Shaped c ReplacementPolicy.LRU S W)
    (h : access_cache rnd k c a = some (hit, c1, k1)) (B : Nat) (hB : (B : Int) < INT_MAX)
    (hbd : ∀ w, w < W → (set_view c.cache_lines (get_index a S * W) w).valid = true →
      0 ≤ (set_view c.cache_lines (get_index a S * W) w).counter ∧
      (set_view c.cache_lines (get_index a S * W) w).counter ≤ (B : Int)) :
    ∀ w, w < W → (set_view c1.cache_lines (get_index a S * W) w).valid = true →
      0 ≤ (set_view c1.cache_lines (get_index a S * W) w).counter ∧
      (set_view c1.cache_lines (get_index a S * W) w).counter ≤ ((B + 1 : Nat) : Int) := by
  obtain ⟨j, _, _, _, _, _, j3, j4⟩ := set_after_access hS hW hc h
  intro w hw hv
  by_cases hwj : w = j
  · rw [hwj, j3]
    exact ⟨le_refl _, by omega⟩
  · obtain ⟨e1, _, e3⟩ := j4 w hw hwj
    rw [e1] at hv
    obtain ⟨b1, b2⟩ := hbd w hw hv
    rw [e3, int_incr_of_nonneg b1 (by omega)]
    push_cast
    omega

theorem lru_sim {rnd : Nat → Nat} {k k1 : Nat} {c c1 : Cache} {a : Nat} {hit : Bool}
    {S W : Nat} {L : List Nat} (hS : 1 ≤ S) (hW : 1 ≤ W)
    (hc : Shaped c ReplacementPolicy.LRU S W)
    (hrel : LruRel (set_view c.cache_lines (get_index a S * W)) W L)
    (hnn : ∀ w, w < W → (set_view c.cache_lines (get_index a S * W) w).valid = true →
      0 ≤ (set_view c.cache_lines (get_index a S * W) w).counter ∧
      (set_view c.cache_lines (get_index a S * W) w).counter < INT_MAX)
    (h : access_cache rnd k c a = some (hit, c1, k1)) :
    hit = (ref_lru_access W L (get_tag a)).1 ∧
    LruRel (set_view c1.cache_lines (get_index a S * W)) W (ref_lru_access W L (get_tag a)).2 := by
  have hs : get_index a S < S := get_index_lt a S hS
  obtain ⟨ws, hnd, hmem, hL, hLnd, hpw⟩ := hrel
  obtain ⟨_, hcase⟩ := access_cache_cases hS hW hc h
  rcases hcase with ⟨e, w0, hw0, hh, hl⟩ | ⟨e, v, hv, hf, hno, hl⟩
  · -- hit at way w0
    have hw0in : w0 ∈ ws := (hmem w0).2 ⟨hw0, hh.1⟩
    have htL : get_tag a ∈ L := by
      rw [hL]
      exact List.mem_map.2 ⟨w0, hw0in, hh.2⟩
    have hrest : (ws.erase w0).map
        (fun w => (set_view c.cache_lines (get_index a S * W) w).tag) = L.erase (get_tag a) := by
      rw [map_erase_of_nodup ws w0 (by rw [← hL]; exact hLnd) hw0in, ← hL]
      show L.erase (line_at c.cache_lines (get_index a S * W + w0)).tag = _
      rw [hh.2]
    have href : ref_lru_access W L (get_tag a) = (true, get_tag a :: L.erase (get_tag a)) := by
      unfold ref_lru_access
      rw [if_pos htL]
    rw [href, ← hrest]
    refine ⟨e, lru_rel_after _ _ W w0 (get_tag a) (ws.erase w0) hw0 (hnd.erase w0)
      hnd.not_mem_erase ?_ ?_ ?_ (hpw.sublist (List.erase_sublist w0 ws)) hnn ?_ ?_⟩
    · intro w
      rw [hnd.mem_erase_iff, hmem w]
      constructor
      · rintro ⟨h1, h2, h3⟩
        exact ⟨h2, h1, h3⟩
      · rintro ⟨h1, h2, h3⟩
        exact ⟨h2, h1, h3⟩
    · rw [hrest]
      exact hLnd.erase _
    · rw [hrest]
      exact hLnd.not_mem_erase
    · show (line_at c1.cache_lines _).valid = true ∧ (line_at c1.cache_lines _).tag = _ ∧
        (line_at c1.cache_lines _).counter = 0
      rw [hl _ (index_lt_length hs hw0), touch_in_set _ _ _ _ _ hw0, if_pos rfl]
      exact ⟨hh.1, hh.2, rfl⟩
    · intro w hw hne
      show (line_at c1.cache_lines _).valid = _ ∧ (line_at c1.cache_lines _).tag = _ ∧
        (line_at c1.cache_lines _).counter = _
      rw [hl _ (index_lt_length hs hw), touch_in_set _ _ _ _ _ hw, if_neg hne]
      exact ⟨rfl, rfl, rfl⟩
  · -- miss with victim v
    have htL : get_tag a ∉ L := by
      rw [hL]
      intro hin
      obtain ⟨w, hw, htag⟩ := List.mem_map.1 hin
      obtain ⟨h1, h2⟩ := (hmem w).1 hw
      exact hno w h1 ⟨h2, htag⟩
    have h1j : (set_view c1.cache_lines (get_index a S * W) v).valid = true ∧
        (set_view c1.cache_lines (get_index a S * W) v).tag = get_tag a ∧
        (set_view c1.cache_lines (get_index a S * W) v).counter = 0 := by
      show (line_at c1.cache_lines _).valid = true ∧ (line_at c1.cache_lines _).tag = _ ∧
        (line_at c1.cache_lines _).counter = 0
      rw [hl _ (index_lt_length hs hv), touch_in_set _ _ _ _ _ hv, if_pos rfl]
      have e2 := install_self (get_tag a) (get_index a S * W + v)
        (line_at c.cache_lines (get_index a S * W + v))
      exact ⟨e2.1, e2.2, rfl⟩
    have h1o : ∀ w, w < W → w ≠ v →
        (set_view c1.cache_lines (get_index a S * W) w).valid =
          (set_view c.cache_lines (get_index a S * W) w).valid ∧
        (set_view c1.cache_lines (get_index a S * W) w).tag =
          (set_view c.cache_lines (get_index a S * W) w).tag ∧
        (set_view c1.cache_lines (get_index a S * W) w).counter =
          int_incr (set_view c.cache_lines (get_index a S * W) w).counter := by
      intro w hw hne
      show (line_at c1.cache_lines _).valid = _ ∧ (line_at c1.cache_lines _).tag = _ ∧
        (line_at c1.cache_lines _).counter = _
      rw [hl _ (index_lt_length hs hw), touch_in_set _ _ _ _ _ hw, if_neg hne,
        install_other _ _ _ _ (by omega)]
      exact ⟨rfl, rfl, rfl⟩
    obtain ⟨_, _, hlru⟩ := victim_spec rnd k c (get_index a S) ReplacementPolicy.LRU S W v k1
      hW hs hc hf
    obtain ⟨_, hvic⟩ := hlru rfl
    rcases hvic with ⟨hinv, _⟩ | ⟨hall, _, hmax⟩
    · -- an invalid line is filled
      have hvws : v ∉ ws := by
        intro hin
        have := ((hmem v).1 hin).2
        rw [show (set_view c.cache_lines (get_index a S * W) v).valid =
          (line_at c.cache_lines (get_index a S * W + v)).valid from rfl, hinv] at this
        cases this
      have hlenlt : L.length ≠ W := by
        have h1 : (v :: ws).length ≤ W := by
          apply length_le_of_nodup_lt (List.nodup_cons.2 ⟨hvws, hnd⟩)
          intro w hw
          rcases List.mem_cons.1 hw with h | h
          · rw [h]
            exact hv
          · exact ((hmem w).1 h).1
        rw [hL, List.length_map]
        simp only [List.length_cons] at h1
        omega
      have href : ref_lru_access W L (get_tag a) = (false, get_tag a :: L) := by
        unfold ref_lru_access
        rw [if_neg htL, if_neg hlenlt]
      rw [href, hL]
      refine ⟨e, lru_rel_after _ _ W v (get_tag a) ws hv hnd hvws ?_ (by rw [← hL]; exact hLnd)
        (by rw [← hL]; exact htL) hpw hnn h1j h1o⟩
      intro w
      rw [hmem w]
      constructor
      · rintro ⟨h1, h2⟩
        refine ⟨h1, ?_, h2⟩
        intro hwv
        subst hwv
        exact hvws ((hmem w).2 ⟨h1, h2⟩)
      · rintro ⟨h1, _, h2⟩
        exact ⟨h1, h2⟩
    · -- the set is full: the line with the greatest counter is replaced
      have hallin : ∀ w, w < W → w ∈ ws := fun w hw => (hmem w).2 ⟨hw, hall w hw⟩
      have hlen : L.length = W := by
        rw [hL, List.length_map]
        exact le_antisymm (length_le_of_nodup_lt hnd (fun w hw => ((hmem w).1 hw).1))
          (le_length_of_all_mem hallin)
      rcases List.eq_nil_or_concat ws with hnil | ⟨init, u, hws⟩
      · have := hallin v hv
        rw [hnil] at this
        cases this
      rw [List.concat_eq_append] at hws
      subst hws
      have hnd2 := List.nodup_append.1 hnd
      have hpw2 := List.pairwise_append.1 hpw
      have hu : u < W := ((hmem u).1 (by simp)).1
      have hvu : v = u := by
        rcases List.mem_append.1 (hallin v hv) with hin | hin
        · exfalso
          have h1 := hpw2.2.2 v hin u (by simp)
          have h2 := hmax u hu
          have h3 : (set_view c.cache_lines (get_index a S * W) u).counter ≤
              (set_view c.cache_lines (get_index a S * W) v).counter := h2
          omega
        · simpa using hin
      subst hvu
      have hvinit : v ∉ init := fun hin => hnd2.2.2 hin (by simp)
      have hdrop : L.dropLast =
          init.map (fun w => (set_view c.cache_lines (get_index a S * W) w).tag) := by
        rw [hL, List.map_append, List.map_singleton, List.dropLast_concat]
      have hsubl : (init.map (fun w => (set_view c.cache_lines (get_index a S * W) w).tag)).Sublist
          L := by
        rw [hL, List.map_append]
        exact List.sublist_append_left _ _
      have href : ref_lru_access W L (get_tag a) = (false, get_tag a :: L.dropLast) := by
        unfold ref_lru_access
        rw [if_neg htL, if_pos hlen]
      rw [href, hdrop]
      refine ⟨e, lru_rel_after _ _ W v (get_tag a) init hv hnd2.1 hvinit ?_
        (hsubl.nodup hLnd) (fun hin => htL (hsubl.subset hin)) hpw2.1 hnn h1j h1o⟩
      intro w
      constructor
      · intro hin
        obtain ⟨h1, h2⟩ := (hmem w).1 (List.mem_append_left _ hin)
        refine ⟨h1, ?_, h2⟩
        intro hwv
        subst hwv
        exact hvinit hin
      · rintro ⟨h1, h2, h3⟩
        rcases List.mem_append.1 ((hmem w).2 ⟨h1, h3⟩) with hin | hin
        · exact hin
        · exact absurd (by simpa using hin) h2

theorem lru_replay_set (rnd : Nat → Nat) (S W : Nat) (hS : 1 ≤ S) (hW : 1 ≤ W) (s : Nat) :
    ∀ (as : List Nat) (k : Nat) (c : Cache) (L : List Nat) (B : Nat),
      Shaped c ReplacementPolicy.LRU S W → LruRel (set_view c.cache_lines (s * W)) W L →
      (∀ w, w < W → (set_view c.cache_lines (s * W) w).valid = true →
        0 ≤ (set_view c.cache_lines (s * W) w).counter ∧
        (set_view c.cache_lines (s * W) w).counter ≤ (B : Int)) →
      ((B + as.length : Nat) : Int) ≤ INT_MAX →
      (∀ a, a ∈ as → get_index a S = s) →
      ∃ os c1 k1, replay rnd k c as = some (os, c1, k1) ∧
        os.map Outcome.is_hit = (ref_lru_replay W L (as.map get_tag)).1 ∧
        Shaped c1 ReplacementPolicy.LRU S W ∧
        LruRel (set_view c1.cache_lines (s * W)) W (ref_lru_replay W L (as.map get_tag)).2 := by
  intro as
  induction as with
  | nil =>
    intro k c L B hc hrel _ _ _
    exact ⟨[], c, k, rfl, rfl, hc, hrel⟩
  | cons a rest ih =>
    intro k c L B hc hrel hbd hlen hset
    have hsa : get_index a S = s := hset a (List.mem_cons_self _ _)
    have hB : (B : Int) < INT_MAX := by
      rw [List.length_cons] at hlen
      push_cast at hlen
      omega
    have hstep : ∃ o c1 k1, access_outcome rnd k c a = some (o, c1, k1) ∧
        access_cache rnd k c a = some (o.is_hit, c1, k1) ∧
        Shaped c1 ReplacementPolicy.LRU S W := by
      rcases step_spec rnd k c a ReplacementPolicy.LRU S W hS hW hc with
        ⟨w, c1, ho, ha, _, _, hc1, _⟩ | ⟨v, k1, c1, ho, ha, _, _, _, hc1, _⟩
      · exact ⟨_, c1, k, ho, ha, hc1⟩
      · exact ⟨_, c1, k1, ho, ha, hc1⟩
    obtain ⟨o, c1, k1, ho, ha, hc1⟩ := hstep
    rw [← hsa] at hrel hbd
    obtain ⟨e1, hrel1⟩ := lru_sim hS hW hc hrel
      (fun w hw hv => ⟨(hbd w hw hv).1, lt_of_le_of_lt (hbd w hw hv).2 hB⟩) ha
    have hbd1 := valid_bound_after hS hW hc ha B hB hbd
    rw [hsa] at hrel1 hbd1
    obtain ⟨os, c2, k2, hr, e2, hc2, hrel2⟩ := ih k1 c1 _ (B + 1) hc1 hrel1 hbd1
      (by rw [List.length_cons] at hlen; rw [Nat.add_assoc, Nat.add_comm 1]; exact hlen)
      (fun b hb => hset b (List.mem_cons_of_mem _ hb))
    refine ⟨o :: os, c2, k2, ?_, ?_, hc2, hrel2⟩
    · rw [replay_cons, ho]
      simp only [hr]
    · rw [List.map_cons, List.map_cons, e1, e2]
      rfl

theorem lru_rel_fresh (ty : CacheType) (p : ReplacementPolicy) (S W base : Nat) :
    LruRel (set_view (fresh_cache ty p S W).cache_lines base) W [] := by
  refine ⟨[], List.nodup_nil, ?_, rfl, List.nodup_nil, List.Pairwise.nil⟩
  intro w
  have : (set_view (fresh_cache ty p S W).cache_lines base w).valid = false := by
    show (line_at (List.replicate (S * W) zero_line) _).valid = false
    rw [line_at_replicate]
    rfl
  rw [this]
  simp

theorem get_index_one (a : Nat) : get_index a 1 = 0 := Nat.mod_one _

/-! ## What a successful call did, for an arbitrary cache -/

theorem no_dup_step {rnd : Nat → Nat} {k k1 : Nat} {c c1 : Cache} {a : Nat} {hit : Bool}
    {p : ReplacementPolicy} {S W : Nat} (hS : 1 ≤ S) (hW : 1 ≤ W) (hc : Shaped c p S W)
    (h : access_cache rnd k c a = some (hit, c1, k1))
    (hnd : ∀ s w1 w2 t, s < S → w1 < W → w2 < W → holds c.cache_lines (s * W + w1) t →
      holds c.cache_lines (s * W + w2) t → w1 = w2) :
    ∀ s w1 w2 t, s < S → w1 < W → w2 < W → holds c1.cache_lines (s * W + w1) t →
      holds c1.cache_lines (s * W + w2) t → w1 = w2 := by
  obtain ⟨_, hcase⟩ := access_cache_cases hS hW hc h
  intro s w1 w2 t hs hw1 hw2 h1 h2
  have hi1 := index_lt_length hs hw1
  have hi2 := index_lt_length hs hw2
  rcases hcase with ⟨_, w, _, _, hl⟩ | ⟨_, v, hv, _, hno, hl⟩
  · rw [holds, hl _ hi1, touch_valid, touch_tag] at h1
    rw [holds, hl _ hi2, touch_valid, touch_tag] at h2
    exact hnd s w1 w2 t hs hw1 hw2 h1 h2
  · rw [holds, hl _ hi1, touch_valid, touch_tag] at h1
    rw [holds, hl _ hi2, touch_valid, touch_tag] at h2
    by_cases e1 : s * W + w1 = get_index a S * W + v
    · by_cases e2 : s * W + w2 = get_index a S * W + v
      · have := set_way_unique hw1 hw2 (e1.trans e2.symm)
        exact this.2
      · exfalso
        rw [install_other _ _ _ _ e2] at h2
        rw [e1] at h1
        have ht := (install_self (get_tag a) (get_index a S * W + v)
          (line_at c.cache_lines (get_index a S * W + v))).2
        have ht2 : t = get_tag a := h1.2.symm.trans ht
        obtain ⟨es, _⟩ := set_way_unique hw1 hv e1
        subst es ht2
        exact hno w2 hw2 h2
    · rw [install_other _ _ _ _ e1] at h1
      by_cases e2 : s * W + w2 = get_index a S * W + v
      · exfalso
        rw [e2] at h2
        have ht := (install_self (get_tag a) (get_index a S * W + v)
          (line_at c.cache_lines (get_index a S * W + v))).2
        have ht2 : t = get_tag a := h2.2.symm.trans ht
        obtain ⟨es, _⟩ := set_way_unique hw2 hv e2
        subst es ht2
        exact hno w1 hw1 h1
      · rw [install_other _ _ _ _ e2] at h2
        exact hnd s w1 w2 t hs hw1 hw2 h1 h2

theorem reachable_no_dup {ty : CacheType} {p : ReplacementPolicy} {S W : Nat} {c : Cache}
    (hS : 1 ≤ S) (hW : 1 ≤ W) (hr : Reachable (fresh_cache ty p S W) c) :
    ∀ s w1 w2 t, s < S → w1 < W → w2 < W → holds c.cache_lines (s * W + w1) t →
      holds c.cache_lines (s * W + w2) t → w1 = w2 := by
  induction hr with
  | start =>
    intro s w1 w2 t _ _ _ h1 _
    have : (line_at (fresh_cache ty p S W).cache_lines (s * W + w1)).valid = false := by
      show (line_at (List.replicate (S * W) zero_line) _).valid = false
      rw [line_at_replicate]
      rfl
    rw [holds, this] at h1
    exact absurd h1.1 (by decide)
  | step rnd k k1 a hit hr1 hstep ih =>
    exact no_dup_step hS hW (reachable_shaped hS hW hr1) hstep ih

/-! ## Accessing more distinct tags than a set has ways -/

theorem cycle_inv_after (f f1 : Nat → CacheLine) (W t0 t j : Nat) (T : List Nat)
    (hj : j < W) (hlen : T.length < 2147483647) (ht : t ∉ T) (ht0 : t0 ∈ T)
    (hnd : ∀ w1 w2, w1 < W → w2 < W → (f w1).valid = true → (f w2).valid = true →
      (f w1).tag = (f w2).tag → w1 = w2)
    (hvic : (f j).valid = true → (f j).tag = t ∨ ∀ w, w < W → (f w).counter ≤ (f j).counter)
    (h1j : (f1 j).valid = true ∧ (f1 j).tag = t ∧ (f1 j).counter = 0)
    (h1o : ∀ w, w < W → w ≠ j → (f1 w).valid = (f w).valid ∧ (f1 w).tag = (f w).tag ∧
      (f1 w).counter = int_incr (f w).counter)
    (h : CycleInv f W t0 T) : CycleInv f1 W t0 (t :: T) := by
  have htt0 : t ≠ t0 := fun e => ht (by rw [e]; exact ht0)
  rcases h with hE | ⟨init, x0, ⟨hwnd, hwv, hwc⟩, hwl, hwt, hx0t⟩
  · left
    rintro w hw ⟨hv, htg⟩
    by_cases hwj : w = j
    · rw [hwj, h1j.2.1] at htg
      exact htt0 htg
    · obtain ⟨e1, e2, _⟩ := h1o w hw hwj
      rw [e1] at hv
      rw [e2] at htg
      exact hE w hw ⟨hv, htg⟩
  · have hx0in : x0 ∈ init ++ [x0] := by simp
    have hx0c : (f x0).counter = (init.length : Int) :=
      hwc init.length x0 (getElem?_snoc_eq _ _)
    by_cases hjin : j ∈ init ++ [x0]
    · rcases hvic (hwv j hjin).2 with htj | hmax
      · exfalso
        apply ht
        rw [← htj]
        exact hwt j hjin
      · by_cases hjx : j = x0
        · left
          rintro w hw ⟨hv, htg⟩
          by_cases hwj : w = j
          · rw [hwj, h1j.2.1] at htg
            exact htt0 htg
          · obtain ⟨e1, e2, _⟩ := h1o w hw hwj
            rw [e1] at hv
            rw [e2] at htg
            apply hwj
            rw [hjx]
            exact hnd w x0 hw (hwv x0 hx0in).1 hv (hwv x0 hx0in).2 (htg.trans hx0t.symm)
        · exfalso
          have hji : j ∈ init := by
            rcases List.mem_append.1 hjin with h | h
            · exact h
            · exact absurd (by simpa using h) hjx
          obtain ⟨p, hp, hpj⟩ := List.getElem_of_mem hji
          have hpc : (f j).counter = (p : Int) := by
            apply hwc p j
            rw [getElem?_snoc_lt _ _ hp, List.getElem?_eq_getElem hp, hpj]
          have := hmax x0 (hwv x0 hx0in).1
          rw [hx0c, hpc] at this
          omega
    · right
      have hne : ∀ w, w ∈ init ++ [x0] → w ≠ j := fun w hw e => hjin (by rw [← e]; exact hw)
      refine ⟨j :: init, x0, ⟨?_, ?_, ?_⟩, ?_, ?_, ?_⟩
      · rw [List.cons_append]
        exact List.nodup_cons.2 ⟨hjin, hwnd⟩
      · intro w hw
        rw [List.cons_append] at hw
        rcases List.mem_cons.1 hw with e | hin
        · rw [e]
          exact ⟨hj, h1j.1⟩
        · obtain ⟨a1, a2⟩ := hwv w hin
          exact ⟨a1, by rw [(h1o w a1 (hne w hin)).1]; exact a2⟩
      · intro p w hp
        rw [List.cons_append] at hp
        cases p with
        | zero =>
          simp only [List.getElem?_cons_zero, Option.some.injEq] at hp
          rw [← hp, h1j.2.2]
          rfl
        | succ p =>
          rw [List.getElem?_cons_succ] at hp
          have hin : w ∈ init ++ [x0] := List.getElem?_mem hp
          have hpl : p < (init ++ [x0]).length := lt_length_of_getElem? hp
          obtain ⟨a1, _⟩ := hwv w hin
          rw [(h1o w a1 (hne w hin)).2.2, hwc p w hp, int_incr_of_nonneg (by omega)]
          · push_cast
            rfl
          · simp only [List.length_append, List.length_singleton] at hpl
            unfold INT_MAX
            omega
      · simp only [List.length_cons]
        omega
      · intro w hw
        rw [List.cons_append] at hw
        rcases List.mem_cons.1 hw with e | hin
        · rw [e, h1j.2.1]
          exact List.mem_cons_self _ _
        · obtain ⟨a1, _⟩ := hwv w hin
          rw [(h1o w a1 (hne w hin)).2.1]
          exact List.mem_cons_of_mem _ (hwt w hin)
      · rw [(h1o x0 (hwv x0 hx0in).1 (hne x0 hx0in)).2.1]
        exact hx0t

theorem cycle_step {rnd : Nat → Nat} {k k1 : Nat} {c c1 : Cache} {a : Nat} {hit : Bool}
    {S W : Nat} (hS : 1 ≤ S) (hW : 1 ≤ W) (hc : Shaped c ReplacementPolicy.LRU S W)
    (hnd : ∀ s w1 w2 t, s < S → w1 < W → w2 < W → holds c.cache_lines (s * W + w1) t →
      holds c.cache_lines (s * W + w2) t → w1 = w2)
    (h : access_cache rnd k c a = some (hit, c1, k1)) (t0 : Nat) (T : List Nat)
    (hlen : T.length < 2147483647) (ht : get_tag a ∉ T) (ht0 : t0 ∈ T)
    (hinv : CycleInv (set_view c.cache_lines (get_index a S * W)) W t0 T) :
    CycleInv (set_view c1.cache_lines (get_index a S * W)) W t0 (get_tag a :: T) := by
  have hs : get_index a S < S := get_index_lt a S hS
  obtain ⟨j, hj, hhit, hmiss, j1, j2, j3, j4⟩ := set_after_access hS hW hc h
  refine cycle_inv_after _ _ W t0 (get_tag a) j T hj hlen ht ht0 ?_ ?_ ⟨j1, j2, j3⟩ j4 hinv
  · intro w1 w2 hw1 hw2 hv1 hv2 htg
    exact hnd (get_index a S) w1 w2 _ hs hw1 hw2 ⟨hv1, htg⟩ ⟨hv2, rfl⟩
  · intro hv
    cases hit with
    | true => exact Or.inl (hhit rfl).2
    | false =>
      right
      obtain ⟨_, _, hlru⟩ := victim_spec rnd k c (get_index a S) ReplacementPolicy.LRU S W j k1
        hW hs hc (hmiss rfl)
      obtain ⟨_, hvic⟩ := hlru rfl
      rcases hvic with ⟨hinval, _⟩ | ⟨_, _, hmax⟩
      · exact absurd (hv.symm.trans hinval) (by decide)
      · exact hmax

theorem cycle_replay (ty : CacheType) (S W : Nat) (hS : 1 ≤ S) (hW : 1 ≤ W)
    (hWb : W < 2147483647) (rnd : Nat → Nat) (s t0 : Nat) :
    ∀ (as : List Nat) (k : Nat) (c : Cache) (T : List Nat),
      Reachable (fresh_cache ty ReplacementPolicy.LRU S W) c →
      CycleInv (set_view c.cache_lines (s * W)) W t0 T → t0 ∈ T →
      T.length + as.length = W + 1 → (∀ a, a ∈ as → get_index a S = s) →
      (as.map get_tag).Nodup → (∀ a, a ∈ as → get_tag a ∉ T) →
      ∃ os c1 k1, replay rnd k c as = some (os, c1, k1) ∧
        Reachable (fresh_cache ty ReplacementPolicy.LRU S W) c1 ∧
        ∀ w, w < W → ¬ holds c1.cache_lines (s * W + w) t0 := by
  intro as
  induction as with
  | nil =>
    intro k c T hr hinv _ hlen _ _ _
    refine ⟨[], c, k, rfl, hr, ?_⟩
    rcases hinv with hE | ⟨init, x0, ⟨hwnd, hwv, _⟩, hwl, _, _⟩
    · exact hE
    · exfalso
      have := length_le_of_nodup_lt hwnd (fun w hw => (hwv w hw).1)
      simp only [List.length_append, List.length_singleton, List.length_nil] at this hlen
      omega
  | cons a rest ih =>
    intro k c T hr hinv ht0 hlen hset hnd hT
    have hc := reachable_shaped hS hW hr
    have hsa : get_index a S = s := hset a (List.mem_cons_self _ _)
    rw [List.map_cons, List.nodup_cons] at hnd
    rw [List.length_cons] at hlen
    have hstep : ∃ o c1 k1, access_outcome rnd k c a = some (o, c1, k1) ∧
        access_cache rnd k c a = some (o.is_hit, c1, k1) := by
      rcases step_spec rnd k c a ReplacementPolicy.LRU S W hS hW hc with
        ⟨w, c1, ho, ha, _⟩ | ⟨v, k1, c1, ho, ha, _⟩
      · exact ⟨_, c1, k, ho, ha⟩
      · exact ⟨_, c1, k1, ho, ha⟩
    obtain ⟨o, c1, k1, ho, ha⟩ := hstep
    rw [← hsa] at hinv
    have hinv1 := cycle_step hS hW hc (reachable_no_dup hS hW hr) ha t0 T (by omega)
      (hT a (List.mem_cons_self _ _)) ht0 hinv
    rw [hsa] at hinv1
    obtain ⟨os, c2, k2, hrep, hr2, hfin⟩ := ih k1 c1 (get_tag a :: T)
      (Reachable.step rnd k k1 a _ hr ha) hinv1 (List.mem_cons_of_mem _ ht0)
      (by simp only [List.length_cons]; omega)
      (fun b hb => hset b (List.mem_cons_of_mem _ hb)) hnd.2
      (by
        intro b hb hin
        rcases List.mem_cons.1 hin with e | e
        · exact hnd.1 (by rw [← e]; exact List.mem_map.2 ⟨b, hb, rfl⟩)
        · exact hT b (List.mem_cons_of_mem _ hb) e)
    refine ⟨o :: os, c2, k2, ?_, hr2, hfin⟩
    rw [replay_cons, ho]
    simp only [hrep]

theorem lru_miss_after_cycle (ty : CacheType) (S W : Nat) (hS : 1 ≤ S) (hW : 1 ≤ W)
    (hWb : W < 2147483647) (c : Cache)
    (hr : Reachable (fresh_cache ty ReplacementPolicy.LRU S W) c) (rnd : Nat → Nat) (k : Nat)
    (a0 : Nat) (as : List Nat) (hlen : as.length = W)
    (htags : ((a0 :: as).map get_tag).Nodup)
    (hset : ∀ b, b ∈ as → get_index b S = get_index a0 S) :
    ∃ os c1 k1 c2 k2, replay rnd k c (a0 :: as) = some (os, c1, k1) ∧
      access_cache rnd k1 c1 a0 = some (false, c2, k2) := by
  have hc := reachable_shaped hS hW hr
  have hs : get_index a0 S < S := get_index_lt a0 S hS
  rw [List.map_cons, List.nodup_cons] at htags
  have hstep : ∃ o c1 k1, access_outcome rnd k c a0 = some (o, c1, k1) ∧
      access_cache rnd k c a0 = some (o.is_hit, c1, k1) := by
    rcases step_spec rnd k c a0 ReplacementPolicy.LRU S W hS hW hc with
      ⟨w, c1, ho, ha, _⟩ | ⟨v, k1, c1, ho, ha, _⟩
    · exact ⟨_, c1, k, ho, ha⟩
    · exact ⟨_, c1, k1, ho, ha⟩
  obtain ⟨o, c1, k1, ho, ha⟩ := hstep
  obtain ⟨j, hj, _, _, j1, j2, j3, _⟩ := set_after_access hS hW hc ha
  have hinv : CycleInv (set_view c1.cache_lines (get_index a0 S * W)) W (get_tag a0)
      [get_tag a0] := by
    right
    refine ⟨[], j, ⟨List.nodup_singleton _, ?_, ?_⟩, rfl, ?_, j2⟩
    · intro w hw
      rw [List.nil_append, List.mem_singleton] at hw
      rw [hw]
      exact ⟨hj, j1⟩
    · intro p w hp
      rw [List.nil_append] at hp
      cases p with
      | zero =>
        simp only [List.getElem?_cons_zero, Option.some.injEq] at hp
        rw [← hp, j3]
        rfl
      | succ p => simp at hp
    · intro w hw
      rw [List.nil_append, List.mem_singleton] at hw
      rw [hw, j2]
      exact List.mem_singleton_self _
  obtain ⟨os, c2, k2, hrep, hr2, hfin⟩ := cycle_replay ty S W hS hW hWb rnd (get_index a0 S)
    (get_tag a0) as k1 c1 [get_tag a0] (Reachable.step rnd k k1 a0 _ hr ha) hinv
    (List.mem_singleton_self _) (by simp only [List.length_singleton]; omega) hset htags.2
    (by
      intro b hb hin
      rw [List.mem_singleton] at hin
      exact htags.1 (by rw [← hin]; exact List.mem_map.2 ⟨b, hb, rfl⟩))
  have hc2 := reachable_shaped hS hW hr2
  obtain ⟨hit, c3, k3, h3, _⟩ := access_cache_total rnd k2 c2 a0 (by rw [hc2.2.1]; exact hS)
    (by rw [hc2.2.2.1]; exact hW) hc2.2.2.2
  have hfalse : hit = false := by
    cases hit with
    | false => rfl
    | true =>
      exfalso
      obtain ⟨_, hcase⟩ := access_cache_cases hS hW hc2 h3
      rcases hcase with ⟨_, w, hw, hh, _⟩ | ⟨e, _⟩
      · exact hfin w hw hh
      · cases e
  rw [hfalse] at h3
  refine ⟨o :: os, c2, k2, c3, k3, ?_, h3⟩
  rw [replay_cons, ho]
  simp only [hrep]

/-! ## Counters of an LRU set -/

theorem int_incr_n_succ (x : Int) (n : Nat) : int_incr (int_incr_n x n) = int_incr_n x (n + 1) := by
  unfold int_incr int_incr_n
  push_cast
  omega

theorem int_incr_n_zero {x : Int} (h1 : INT_MIN ≤ x) (h2 : x ≤ INT_MAX) : int_incr_n x 0 = x := by
  unfold INT_MIN at h1
  unfold INT_MAX at h2
  unfold int_incr_n
  push_cast
  omega

theorem int_incr_n_iterate {x : Int} (h1 : INT_MIN ≤ x) (h2 : x ≤ INT_MAX) (n : Nat) :
    int_incr_n x n = Nat.iterate int_incr n x := by
  induction n with
  | zero => exact int_incr_n_zero h1 h2
  | succ n ih => rw [Function.iterate_succ_apply', ← ih, int_incr_n_succ]

theorem ref_lru_replay_append (cap : Nat) (ts1 ts2 : List Nat) :
    ∀ L, ref_lru_replay cap L (ts1 ++ ts2) =
      ((ref_lru_replay cap L ts1).1 ++
          (ref_lru_replay cap (ref_lru_replay cap L ts1).2 ts2).1,
        (ref_lru_replay cap (ref_lru_replay cap L ts1).2 ts2).2) := by
  induction ts1 with
  | nil =>
    intro L
    rfl
  | cons t rest ih =>
    intro L
    show ref_lru_replay cap L (t :: (rest ++ ts2)) = _
    simp only [ref_lru_replay, ih, List.cons_append]

theorem ref_lru_replay_repeat (cap t : Nat) (l : List Nat) (n : Nat) :
    ref_lru_replay cap (t :: l) (List.replicate n t) = (List.replicate n true, t :: l) := by
  have hstep : ref_lru_access cap (t :: l) t = (true, t :: l) := by
    simp [ref_lru_access]
  induction n with
  | zero => rfl
  | succ n ih =>
    rw [List.replicate_succ, List.replicate_succ]
    simp only [ref_lru_replay, hstep, ih]

theorem replay_snoc2 {rnd : Nat → Nat} {k k1 k2 : Nat} {c c1 c2 : Cache} {tr1 tr2 : List Nat}
    {os1 os2 : List Outcome} (h1 : replay rnd k c tr1 = some (os1, c1, k1))
    (h2 : replay rnd k1 c1 tr2 = some (os2, c2, k2)) :
    replay rnd k c (tr1 ++ tr2) = some (os1 ++ os2, c2, k2) := by
  rw [replay_append, h1]
  simp only []
  rw [h2]

set_option maxRecDepth 8000 in
theorem full_set_hit_step (rnd : Nat → Nat) (k : Nat) (x0 x1 x2 x3 x4 x5 x6 : Int) :
    access_outcome rnd k
      (Cache.mk CacheType.FULLY_ASSOC ReplacementPolicy.LRU 1 8
        [CacheLine.mk 0 true x0, CacheLine.mk 1 true x1, CacheLine.mk 2 true x2,
          CacheLine.mk 3 true x3, CacheLine.mk 4 true x4, CacheLine.mk 5 true x5,
          CacheLine.mk 6 true x6, CacheLine.mk 7 true 0]) 56 =
      some (Outcome.hit,
        Cache.mk CacheType.FULLY_ASSOC ReplacementPolicy.LRU 1 8
          [CacheLine.mk 0 true (int_incr x0), CacheLine.mk 1 true (int_incr x1),
            CacheLine.mk 2 true (int_incr x2), CacheLine.mk 3 true (int_incr x3),
            CacheLine.mk 4 true (int_incr x4), CacheLine.mk 5 true (int_incr x5),
            CacheLine.mk 6 true (int_incr x6), CacheLine.mk 7 true 0], k) := by
  simp [access_outcome, access_cache, access_cache_loop, update_counters, update_counters_loop,
    get_tag, get_index, NUM_BLOCKS, CACHE_SIZE, BLOCK_SIZE]

theorem full_set_hit_repeat (rnd : Nat → Nat) (k : Nat) (n : Nat) :
    ∀ m : Nat,
    replay rnd k
      (Cache.mk CacheType.FULLY_ASSOC ReplacementPolicy.LRU 1 8
        [CacheLine.mk 0 true (int_incr_n 7 m), CacheLine.mk 1 true (int_incr_n 6 m),
          CacheLine.mk 2 true (int_incr_n 5 m), CacheLine.mk 3 true (int_incr_n 4 m),
          CacheLine.mk 4 true (int_incr_n 3 m), CacheLine.mk 5 true (int_incr_n 2 m),
          CacheLine.mk 6 true (int_incr_n 1 m), CacheLine.mk 7 true 0])
      (List.replicate n 56) =
      some (List.replicate n Outcome.hit,
        Cache.mk CacheType.FULLY_ASSOC ReplacementPolicy.LRU 1 8
          [CacheLine.mk 0 true (int_incr_n 7 (m + n)), CacheLine.mk 1 true (int_incr_n 6 (m + n)),
            CacheLine.mk 2 true (int_incr_n 5 (m + n)), CacheLine.mk 3 true (int_incr_n 4 (m + n)),
            CacheLine.mk 4 true (int_incr_n 3 (m + n)), CacheLine.mk 5 true (int_incr_n 2 (m + n)),
            CacheLine.mk 6 true (int_incr_n 1 (m + n)), CacheLine.mk 7 true 0], k) := by
  induction n with
  | zero =>
    intro m
    rfl
  | succ n ih =>
    intro m
    rw [List.replicate_succ, List.replicate_succ, replay_cons, full_set_hit_step]
    simp only [int_incr_n_succ, ih (m + 1)]
    rw [show m + 1 + n = m + (n + 1) from by omega]

theorem fully_assoc_fill :
    replay (fun _ => 0) 0 (configs 6) [0, 8, 16, 24, 32, 40, 48, 56] =
      some ([Outcome.miss 0, Outcome.miss 1, Outcome.miss 2, Outcome.miss 3, Outcome.miss 4,
          Outcome.miss 5, Outcome.miss 6, Outcome.miss 7],
        Cache.mk CacheType.FULLY_ASSOC ReplacementPolicy.LRU 1 8
          [CacheLine.mk 0 true (int_incr_n 7 0), CacheLine.mk 1 true (int_incr_n 6 0),
            CacheLine.mk 2 true (int_incr_n 5 0), CacheLine.mk 3 true (int_incr_n 4 0),
            CacheLine.mk 4 true (int_incr_n 3 0), CacheLine.mk 5 true (int_incr_n 2 0),
            CacheLine.mk 6 true (int_incr_n 1 0), CacheLine.mk 7 true 0], 0) := by
  decide

theorem fully_assoc_after_overflow :
    replay (fun _ => 0) 0
      (Cache.mk CacheType.FULLY_ASSOC ReplacementPolicy.LRU 1 8
        [CacheLine.mk 0 true (int_incr_n 7 (0 + 2147483648)),
          CacheLine.mk 1 true (int_incr_n 6 (0 + 2147483648)),
          CacheLine.mk 2 true (int_incr_n 5 (0 + 2147483648)),
          CacheLine.mk 3 true (int_incr_n 4 (0 + 2147483648)),
          CacheLine.mk 4 true (int_incr_n 3 (0 + 2147483648)),
          CacheLine.mk 5 true (int_incr_n 2 (0 + 2147483648)),
          CacheLine.mk 6 true (int_incr_n 1 (0 + 2147483648)), CacheLine.mk 7 true 0])
      [64, 56] =
      some ([Outcome.miss 7, Outcome.miss 7],
        Cache.mk CacheType.FULLY_ASSOC ReplacementPolicy.LRU 1 8
          [CacheLine.mk 0 true (-2147483639), CacheLine.mk 1 true (-2147483640),
            CacheLine.mk 2 true (-2147483641), CacheLine.mk 3 true (-2147483642),
            CacheLine.mk 4 true (-2147483643), CacheLine.mk 5 true (-2147483644),
            CacheLine.mk 6 true (-2147483645), CacheLine.mk 7 true 0], 0) := by
  decide

theorem ref_flags_fill_repeat (n : Nat) : (ref_lru_replay 8 []
      (([0, 8, 16, 24, 32, 40, 48, 56] ++ List.replicate n 56 ++ [64, 56]).map
        (fun a => a / 8))).1 =
      [false, false, false, false, false, false, false, false] ++
        List.replicate n true ++ [false, true] := by
    rw [List.map_append, List.map_append, List.map_replicate, ref_lru_replay_append,
      ref_lru_replay_append]
    have e1 : ref_lru_replay 8 [] ([0, 8, 16, 24, 32, 40, 48, 56].map (fun a => a / 8)) =
        ([false, false, false, false, false, false, false, false],
          [7, 6, 5, 4, 3, 2, 1, 0]) := by decide
    have e2 : (56 : Nat) / 8 = 7 := by decide
    rw [e1]
    simp only [e2]
    rw [ref_lru_replay_repeat]
    simp only []
    have e3 : ref_lru_replay 8 [7, 6, 5, 4, 3, 2, 1, 0] ([64, 56].map (fun a => a / 8)) =
        ([false, true], [7, 8, 6, 5, 4, 3, 2, 1]) := by decide
    rw [e3]

theorem code_fill_repeat (n : Nat) : replay (fun _ => 0) 0 (configs 6)
      ([0, 8, 16, 24, 32, 40, 48, 56] ++ List.replicate n 56) =
      some ([Outcome.miss 0, Outcome.miss 1, Outcome.miss 2, Outcome.miss 3, Outcome.miss 4,
          Outcome.miss 5, Outcome.miss 6, Outcome.miss 7] ++ List.replicate n Outcome.hit,
        Cache.mk CacheType.FULLY_ASSOC ReplacementPolicy.LRU 1 8
        [CacheLine.mk 0 true (int_incr_n 7 (0 + n)),
          CacheLine.mk 1 true (int_incr_n 6 (0 + n)),
          CacheLine.mk 2 true (int_incr_n 5 (0 + n)),
          CacheLine.mk 3 true (int_incr_n 4 (0 + n)),
          CacheLine.mk 4 true (int_incr_n 3 (0 + n)),
          CacheLine.mk 5 true (int_incr_n 2 (0 + n)),
          CacheLine.mk 6 true (int_incr_n 1 (0 + n)), CacheLine.mk 7 true 0], 0) := by
    rw [replay_append, fully_assoc_fill]
    simp only []
    rw [full_set_hit_repeat]

theorem flags_fill_repeat (n : Nat) :
    ([Outcome.miss 0, Outcome.miss 1, Outcome.miss 2, Outcome.miss 3, Outcome.miss 4,
      Outcome.miss 5, Outcome.miss 6, Outcome.miss 7] ++
      List.replicate n Outcome.hit ++ [Outcome.miss 7, Outcome.miss 7]).map Outcome.is_hit =
      [false, false, false, false, false, false, false, false] ++
        List.replicate n true ++ [false, false] := by
  rw [List.map_append, List.map_append, List.map_replicate]
  rfl

theorem flags_differ (n : Nat) (fl : List Bool)
    (h : fl = [false, false, false, false, false, false, false, false] ++
      List.replicate n true ++ [false, false]) :
    fl ≠ (ref_lru_replay 8 []
      (([0, 8, 16, 24, 32, 40, 48, 56] ++ List.replicate n 56 ++ [64, 56]).map
        (fun a => a / 8))).1 := by
  rw [h, ref_flags_fill_repeat n]
  intro h2
  exact absurd (List.append_cancel_left h2) (by decide)

/-! ### The 2-way LRU configuration: repeated hits on way 1 of set 0 -/

/-- C5: for each of the 8 configurations built by `main`, `num_sets * num_ways` is the same
constant `NUM_BLOCKS` (which is also the length of the allocated line table), the type is
`i / 2` in declaration order, and `num_ways` is 1 for direct-mapped, 2 for 2-way, 4 for 4-way
and `NUM_BLOCKS` (the total capacity) for fully-associative. -/
theorem configs_capacity_constant :
    ∀ i : Fin 8,
      (configs i.val).num_sets * (configs i.val).num_ways = NUM_BLOCKS ∧
      (configs i.val).cache_lines.length = NUM_BLOCKS ∧
      (configs i.val).type = cache_type_of (i.val / 2) ∧
      ((configs i.val).type = CacheType.DIRECT_MAPPED → (configs i.val).num_ways = 1) ∧
      ((configs i.val).type = CacheType.TWO_WAY → (configs i.val).num_ways = 2) ∧
      ((configs i.val).type = CacheType.FOUR_WAY → (configs i.val).num_ways = 4) ∧
      ((configs i.val).type = CacheType.FULLY_ASSOC → (configs i.val).num_ways = NUM_BLOCKS) := by
  decide

/-- C6, as stated, fails: the first configuration built by `main` (direct-mapped, LRU) has
`num_sets * num_ways = 8`, not 32. -/
theorem configs_capacity_not_32 :
    ¬ ((configs 0).num_sets * (configs 0).num_ways = 32) := by
  decide

/-- C6, amended: every one of the 8 configurations built by `main` has a total capacity of 8
lines (`num_sets * num_ways = NUM_BLOCKS = CACHE_SIZE / BLOCK_SIZE = 8`, the length of its line
table), each line covering `BLOCK_SIZE = 4` addressable units, so that the capacity is
`CACHE_SIZE = 32` addressable units. -/
theorem configs_capacity_8_lines :
    ∀ i : Fin 8,
      (configs i.val).num_sets * (configs i.val).num_ways = 8 ∧
      (configs i.val).cache_lines.length = 8 ∧
      BLOCK_SIZE = 4 ∧
      (configs i.val).num_sets * (configs i.val).num_ways * BLOCK_SIZE = CACHE_SIZE ∧
      CACHE_SIZE = 32 := by
  decide

/-! ## Hit requires prior residency -/

/-- C2: for every LRU configuration built by `main` (`W = num_ways` is 1, 2, 4 or 8) and every
state reachable from its fresh cache: after accessing `W + 1` addresses `a0, as` with pairwise
distinct tags that all map to the same set, in order, an immediately following access to the
first address `a0` returns miss. -/
theorem lru_evicts_first_of_cycle (i : Fin 8)
    (hp : (configs i.val).policy = ReplacementPolicy.LRU) (c : Cache)
    (hr : Reachable (configs i.val) c) (rnd : Nat → Nat) (k : Nat) (a0 : Nat) (as : List Nat)
    (hlen : (a0 :: as).length = (configs i.val).num_ways + 1)
    (htags : ((a0 :: as).map get_tag).Nodup)
    (hset : ∀ b, b ∈ as →
      get_index b (configs i.val).num_sets = get_index a0 (configs i.val).num_sets) :
    ∃ os c1 k1 c2 k2, replay rnd k c (a0 :: as) = some (os, c1, k1) ∧
      os.length = (configs i.val).num_ways + 1 ∧
      access_cache rnd k1 c1 a0 = some (false, c2, k2) := by
  have hgeo : ∀ j : Fin 8, 1 ≤ (configs j.val).num_sets ∧ 1 ≤ (configs j.val).num_ways ∧
      (configs j.val).num_ways < 2147483647 := by
    decide
  have e : configs i.val = fresh_cache (configs i.val).type ReplacementPolicy.LRU
      (configs i.val).num_sets (configs i.val).num_ways := by
    rw [← hp]
    exact configs_eq_fresh i.val
  rw [e] at hr
  simp only [List.length_cons, Nat.add_right_cancel_iff] at hlen
  obtain ⟨os, c1, k1, c2, k2, h1, h2⟩ := lru_miss_after_cycle (configs i.val).type
    (configs i.val).num_sets (configs i.val).num_ways (hgeo i).1 (hgeo i).2.1 (hgeo i).2.2 c hr
    rnd k a0 as
    hlen htags hset
  refine ⟨os, c1, k1, c2, k2, h1, ?_, h2⟩
  have := replay_length h1
  rw [this, List.length_cons, hlen]

/-- Witness for C2: the 2-way LRU configuration, from its fresh cache, with the addresses
0, 16, 32 (tags 0, 2, 4, all in set 0). -/
theorem lru_evicts_first_of_cycle_witness :
    ∃ os c1 k1 c2 k2, replay (fun _ => 0) 0 (configs 2) [0, 16, 32] = some (os, c1, k1) ∧
      os.length = (configs 2).num_ways + 1 ∧
      access_cache (fun _ => 0) k1 c1 0 = some (false, c2, k2) :=
  lru_evicts_first_of_cycle 2 (by decide) (configs 2) Reachable.start (fun _ => 0) 0 0 [16, 32]
    (by decide) (by decide) (by decide)

/-! ## The fully-associative LRU cache as one global LRU cache -/

/-- C3 fails on the code: on the fresh fully-associative LRU configuration, replay the trace
`0, 8, ..., 56` (8 misses that fill the set), then `2^31` accesses to `56` (hits, which wrap
the counters of the other 7 lines to negative values), then `64` and `56`.  The miss of `64`
replaces the line of `56`, the only one whose counter is above the initial maximum `-1` of the
victim search, so the last access misses, whereas the reference LRU cache drops tag 0 and
reports a hit. -/
theorem fully_assoc_lru_differs_after_overflow :
    ∃ os c k1,
      replay (fun _ => 0) 0 (configs 6)
        ([0, 8, 16, 24, 32, 40, 48, 56] ++ List.replicate 2147483648 56 ++ [64, 56]) =
          some (os, c, k1) ∧
      os.map Outcome.is_hit =
        [false, false, false, false, false, false, false, false] ++
          List.replicate 2147483648 true ++ [false, false] ∧
      (ref_lru_replay 8 []
        (([0, 8, 16, 24, 32, 40, 48, 56] ++ List.replicate 2147483648 56 ++ [64, 56]).map
          (fun a => a / 8))).1 =
        [false, false, false, false, false, false, false, false] ++
          List.replicate 2147483648 true ++ [false, true] ∧
      os.map Outcome.is_hit ≠
        (ref_lru_replay 8 []
          (([0, 8, 16, 24, 32, 40, 48, 56] ++ List.replicate 2147483648 56 ++ [64, 56]).map
            (fun a => a / 8))).1 :=
  ⟨_, _, _, replay_snoc2 (code_fill_repeat 2147483648) fully_assoc_after_overflow,
    flags_fill_repeat 2147483648, ref_flags_fill_repeat 2147483648,
    flags_differ 2147483648 _ (flags_fill_repeat 2147483648)⟩

/-- C3 (amended): for every address trace of fewer than `2^31` accesses (no recency counter, a
32-bit `int`, can then overflow) and whatever the random source returns, replaying the trace
on the fresh fully-associative LRU configuration of `main` (configuration 6: one set of 8
ways) returns, and its hit/miss sequence equals that of the reference global LRU cache of
capacity 8 run from the empty list on the tags `address / 8`. -/
theorem fully_assoc_lru_refines_global_lru_below_overflow (rnd : Nat → Nat) (k : Nat)
    (tr : List Nat) (hlen : tr.length < 2147483648) :
    (configs 6).type = CacheType.FULLY_ASSOC ∧ (configs 6).policy = ReplacementPolicy.LRU ∧
    (configs 6).num_sets = 1 ∧ (configs 6).num_ways = 8 ∧
    ∃ os c k1, replay rnd k (configs 6) tr = some (os, c, k1) ∧
      os.map Outcome.is_hit = (ref_lru_replay 8 [] (tr.map (fun a => a / 8))).1 := by
  refine ⟨by decide, by decide, by decide, by decide, ?_⟩
  have e : configs 6 = fresh_cache CacheType.FULLY_ASSOC ReplacementPolicy.LRU 1 8 := by decide
  obtain ⟨os, c, k1, h1, h2, _, _⟩ := lru_replay_set rnd 1 8 (by decide) (by decide) 0 tr k
    (fresh_cache CacheType.FULLY_ASSOC ReplacementPolicy.LRU 1 8) [] 0
    (fresh_cache_shaped _ _ 1 8) (lru_rel_fresh _ _ 1 8 _)
    (by
      intro w _ hv
      exfalso
      have hz : (set_view
          (fresh_cache CacheType.FULLY_ASSOC ReplacementPolicy.LRU 1 8).cache_lines (0 * 8)
          w).valid = false := by
        show (line_at (List.replicate (1 * 8) zero_line) _).valid = false
        rw [line_at_replicate]
        rfl
      exact absurd (hv.symm.trans hz) (by decide))
    (by
      unfold INT_MAX
      omega)
    (fun a _ => get_index_one a)
  rw [e]
  exact ⟨os, c, k1, h1, h2⟩

/-- Witness for C3 (amended): the trace `0, 8, 0, 64` (tags 0, 1, 0, 8). -/
theorem fully_assoc_lru_refines_global_lru_below_overflow_witness :
    [0, 8, 0, 64].length < 2147483648 ∧
    ∃ os c k1, replay (fun _ => 0) 0 (configs 6) [0, 8, 0, 64] = some (os, c, k1) ∧
      os.map Outcome.is_hit = (ref_lru_replay 8 [] ([0, 8, 0, 64].map (fun a => a / 8))).1 :=
  ⟨by decide,
    (fully_assoc_lru_refines_global_lru_below_overflow (fun _ => 0) 0 [0, 8, 0, 64]
      (by decide)).2.2.2.2⟩

/-! ## Tags and blocks -/

/-- Addresses of one block (`a / BLOCK_SIZE = b / BLOCK_SIZE`) have the same tag and, in every
geometry, the same set index. -/
theorem same_block_same_tag (a b S : Nat) (h : a / BLOCK_SIZE = b / BLOCK_SIZE) :
    get_tag a = get_tag b ∧ get_index a S = get_index b S := by
  constructor
  · simp only [get_tag, NUM_BLOCKS, CACHE_SIZE, BLOCK_SIZE, Nat.reduceDiv] at h ⊢
    omega
  · simp only [get_index, h]

/-- With 8, 4 or 2 sets, two addresses of one set have the same tag exactly when they lie in the
same block. -/
theorem tag_identifies_block_of_two_sets (a b S : Nat) (hS : S = 8 ∨ S = 4 ∨ S = 2)
    (h : get_index a S = get_index b S) :
    get_tag a = get_tag b ↔ a / BLOCK_SIZE = b / BLOCK_SIZE := by
  simp only [get_tag, get_index, NUM_BLOCKS, CACHE_SIZE, BLOCK_SIZE, Nat.reduceDiv] at h ⊢
  rcases hS with rfl | rfl | rfl <;> omega

/-- C4 fails in the fully-associative geometry (`num_sets = 1`, configurations 6
and 7 of `main`): the addresses 0 and 4 lie in different blocks of `BLOCK_SIZE = 4` units, yet
they have the same set index and the same tag, and replaying `[0, 4]` on the fresh
fully-associative LRU cache reports the access to 4 as a hit on the line installed for the
block of 0. -/
theorem fully_assoc_tag_conflates_blocks :
    (configs 6).type = CacheType.FULLY_ASSOC ∧ (configs 6).num_sets = 1 ∧
    get_index 0 (configs 6).num_sets = get_index 4 (configs 6).num_sets ∧
    get_tag 0 = get_tag 4 ∧ 0 / BLOCK_SIZE ≠ 4 / BLOCK_SIZE ∧
    ∀ (rnd : Nat → Nat) (k : Nat),
      (replay rnd k (configs 6) [0, 4]).map (fun r => r.1) =
        some [Outcome.miss 0, Outcome.hit] := by
  refine ⟨by decide, by decide, by decide, by decide, by decide, ?_⟩
  intro rnd k
  rfl

/-- C4 (amended): for each of the 8 configurations built by `main` and all addresses `a`, `b`.
Addresses of one block have the same tag and the same set index.  In the configurations with
more than one set (`num_sets` 8, 4 or 2), two addresses of one set have the same tag exactly
when they lie in the same block, and every hit of a replay from the fresh cache is on a line
installed by an earlier miss of an address of the same block, not chosen as victim since.  In
the fully-associative configurations (`num_sets = 1`) all addresses map to the only set and two
addresses have the same tag exactly when they lie in the same pair of adjacent blocks
(`a / (2 * BLOCK_SIZE) = b / (2 * BLOCK_SIZE)`). -/
theorem tag_identifies_block_unless_fully_assoc (i : Fin 8) (a b : Nat) :
    (a / BLOCK_SIZE = b / BLOCK_SIZE →
      get_tag a = get_tag b ∧
      get_index a (configs i.val).num_sets = get_index b (configs i.val).num_sets) ∧
    ((configs i.val).num_sets ≠ 1 →
      (get_index a (configs i.val).num_sets = get_index b (configs i.val).num_sets →
        (get_tag a = get_tag b ↔ a / BLOCK_SIZE = b / BLOCK_SIZE)) ∧
      ∀ (rnd : Nat → Nat) (k : Nat) (tr : List Nat),
        ∃ os c k1, replay rnd k (configs i.val) tr = some (os, c, k1) ∧
          ∀ (N aN : Nat), tr[N]? = some aN → os[N]? = some Outcome.hit →
            ∃ (M aM : Nat) (v : Int), M < N ∧ tr[M]? = some aM ∧
              os[M]? = some (Outcome.miss v) ∧ aM / BLOCK_SIZE = aN / BLOCK_SIZE ∧
              ∀ j : Nat, M < j → j < N → os[j]? ≠ some (Outcome.miss v)) ∧
    ((configs i.val).num_sets = 1 →
      get_index a (configs i.val).num_sets = get_index b (configs i.val).num_sets ∧
      (get_tag a = get_tag b ↔ a / (2 * BLOCK_SIZE) = b / (2 * BLOCK_SIZE))) := by
  have hgeo : ∀ j : Fin 8, 1 ≤ (configs j.val).num_sets ∧ 1 ≤ (configs j.val).num_ways ∧
      ((configs j.val).num_sets = 8 ∨ (configs j.val).num_sets = 4 ∨
        (configs j.val).num_sets = 2 ∨ (configs j.val).num_sets = 1) := by
    decide
  obtain ⟨hS, hW, hcases⟩ := hgeo i
  refine ⟨fun h => same_block_same_tag a b _ h, ?_, ?_⟩
  · intro hne
    have hS3 : (configs i.val).num_sets = 8 ∨ (configs i.val).num_sets = 4 ∨
        (configs i.val).num_sets = 2 := by
      rcases hcases with h | h | h | h
      · exact Or.inl h
      · exact Or.inr (Or.inl h)
      · exact Or.inr (Or.inr h)
      · exact absurd h hne
    refine ⟨fun h => tag_identifies_block_of_two_sets a b _ hS3 h, ?_⟩
    intro rnd k tr
    rw [configs_eq_fresh i.val]
    obtain ⟨os, c, k1, h1, _, _, _, _, h3⟩ := replay_history (configs i.val).type
      (configs i.val).policy (configs i.val).num_sets (configs i.val).num_ways hS hW rnd k tr
    refine ⟨os, c, k1, h1, ?_⟩
    intro N aN hN hhit
    obtain ⟨M, aM, v, g1, g2, g3, g4, g5, g6⟩ := (h3 N aN hN).1 hhit
    exact ⟨M, aM, v, g1, g2, g3, (tag_identifies_block_of_two_sets aM aN _ hS3 g5).1 g4, g6⟩
  · intro h1
    rw [h1]
    refine ⟨by rw [get_index_one, get_index_one], ?_⟩
    simp only [get_tag, NUM_BLOCKS, CACHE_SIZE, BLOCK_SIZE, Nat.reduceDiv, Nat.reduceMul]

/-- Witness for C4 (amended): the direct-mapped LRU configuration (8 sets) and the addresses 1
and 2 of block 0. -/
theorem tag_identifies_block_unless_fully_assoc_witness :
    1 / BLOCK_SIZE = 2 / BLOCK_SIZE ∧ (configs 0).num_sets ≠ 1 ∧
    get_index 1 (configs 0).num_sets = get_index 2 (configs 0).num_sets ∧
    (get_tag 1 = get_tag 2 ↔ 1 / BLOCK_SIZE = 2 / BLOCK_SIZE) :=
  ⟨by decide, by decide,
    ((tag_identifies_block_unless_fully_assoc 0 1 2).1 (by decide)).2,
    ((tag_identifies_block_unless_fully_assoc 0 1 2).2.1 (by decide)).1
      (((tag_identifies_block_unless_fully_assoc 0 1 2).1 (by decide)).2)⟩

/-! ## The two worked examples -/

set_option maxRecDepth 4000 in
theorem two_way_lru_abac (rnd : Nat → Nat) (k : Nat) (A B C : Nat)
    (hB : get_index B 4 = get_index A 4) (hC : get_index C 4 = get_index A 4)
    (hAB : get_tag A ≠ get_tag B) (hAC : get_tag A ≠ get_tag C) (hBC : get_tag B ≠ get_tag C) :
    ∃ c, replay rnd k (fresh_cache CacheType.TWO_WAY ReplacementPolicy.LRU 4 2) [A, B, A, C] =
        some ([Outcome.miss ((get_index A 4 * 2 : Nat) : Int),
          Outcome.miss ((get_index A 4 * 2 + 1 : Nat) : Int),
          Outcome.hit,
          Outcome.miss ((get_index A 4 * 2 + 1 : Nat) : Int)], c, k) ∧
      c.cache_lines[get_index A 4 * 2]? =
        some { tag := get_tag A, valid := true, counter := 1 } ∧
      c.cache_lines[get_index A 4 * 2 + 1]? =
        some { tag := get_tag C, valid := true, counter := 0 } ∧
      c.cache_lines =
        ((fresh_cache CacheType.TWO_WAY ReplacementPolicy.LRU 4 2).cache_lines.set
          (get_index A 4 * 2)
          { tag := get_tag A, valid := true, counter := 1 }).set (get_index A 4 * 2 + 1)
          { tag := get_tag C, valid := true, counter := 0 } := by
  have hBA : get_tag B ≠ get_tag A := fun h => hAB h.symm
  have hCA : get_tag C ≠ get_tag A := fun h => hAC h.symm
  have hCB : get_tag C ≠ get_tag B := fun h => hBC h.symm
  have hs : get_index A 4 < 4 := get_index_lt A 4 (by decide)
  obtain ⟨s, hA⟩ : ∃ s, get_index A 4 = s := ⟨_, rfl⟩
  rw [hA] at hB hC hs
  rw [hA]
  interval_cases s <;>
  simp [replay, access_outcome, access_cache, access_cache_loop, find_replacement,
    find_replacement_loop, update_counters, update_counters_loop, hA, hB, hC, hAB, hAC, hBC,
    hBA, hCA, hCB, zero_line, List.replicate, fresh_cache, int_incr]

/-- C7: in the 2-way LRU configuration (configuration 2: 4 sets of 2 ways), for all addresses
`A`, `B`, `C` with pairwise distinct tags that map to the same set, replaying `A, B, A, C` from
the fresh cache yields miss, miss, hit, miss; the last miss chooses the line that `B` was
installed in (way 1 of the set), not the line of `A`, and afterwards the two lines of the set
hold the tags of `A` and `C` (every other line is as in the fresh cache). -/
theorem two_way_lru_example (rnd : Nat → Nat) (k : Nat) (A B C : Nat)
    (hB : get_index B 4 = get_index A 4) (hC : get_index C 4 = get_index A 4)
    (hAB : get_tag A ≠ get_tag B) (hAC : get_tag A ≠ get_tag C) (hBC : get_tag B ≠ get_tag C) :
    ∃ c, replay rnd k (configs 2) [A, B, A, C] =
        some ([Outcome.miss ((get_index A 4 * 2 : Nat) : Int),
          Outcome.miss ((get_index A 4 * 2 + 1 : Nat) : Int),
          Outcome.hit,
          Outcome.miss ((get_index A 4 * 2 + 1 : Nat) : Int)], c, k) ∧
      c.cache_lines[get_index A 4 * 2]? =
        some { tag := get_tag A, valid := true, counter := 1 } ∧
      c.cache_lines[get_index A 4 * 2 + 1]? =
        some { tag := get_tag C, valid := true, counter := 0 } ∧
      c.cache_lines = ((configs 2).cache_lines.set (get_index A 4 * 2)
          { tag := get_tag A, valid := true, counter := 1 }).set (get_index A 4 * 2 + 1)
          { tag := get_tag C, valid := true, counter := 0 } := by
  have e : configs 2 = fresh_cache CacheType.TWO_WAY ReplacementPolicy.LRU 4 2 := by decide
  rw [e]
  exact two_way_lru_abac rnd k A B C hB hC hAB hAC hBC

/-- Witness for C7 with `A = 0`, `B = 16`, `C = 32` (all three map to set 0). -/
theorem two_way_lru_example_witness :
    ∃ c, replay (fun _ => 0) 0 (configs 2) [0, 16, 0, 32] =
        some ([Outcome.miss ((get_index 0 4 * 2 : Nat) : Int),
          Outcome.miss ((get_index 0 4 * 2 + 1 : Nat) : Int),
          Outcome.hit,
          Outcome.miss ((get_index 0 4 * 2 + 1 : Nat) : Int)], c, 0) ∧
      c.cache_lines[get_index 0 4 * 2]? =
        some { tag := get_tag 0, valid := true, counter := 1 } ∧
      c.cache_lines[get_index 0 4 * 2 + 1]? =
        some { tag := get_tag 32, valid := true, counter := 0 } ∧
      c.cache_lines = ((configs 2).cache_lines.set (get_index 0 4 * 2)
          { tag := get_tag 0, valid := true, counter := 1 }).set (get_index 0 4 * 2 + 1)
          { tag := get_tag 32, valid := true, counter := 0 } :=
  two_way_lru_example (fun _ => 0) 0 0 16 32 (by decide) (by decide) (by decide) (by decide)
    (by decide)

theorem direct_mapped_aba (ty : CacheType) (p : ReplacementPolicy) (S : Nat) (hS : 1 ≤ S)
    (rnd : Nat → Nat) (k : Nat) (a b : Nat) (hab : get_index a S ≠ get_index b S) :
    ∃ c k1, replay rnd k (fresh_cache ty p S 1) [a, b, a] =
      some ([Outcome.miss ((get_index a S : Nat) : Int),
        Outcome.miss ((get_index b S : Nat) : Int), Outcome.hit], c, k1) := by
  have hsa : get_index a S < S := get_index_lt a S hS
  have hsb : get_index b S < S := get_index_lt b S hS
  have h0 := fresh_cache_shaped ty p S 1
  have hfresh : ∀ i, (line_at (fresh_cache ty p S 1).cache_lines i).valid = false := by
    intro i
    show (line_at (List.replicate (S * 1) zero_line) i).valid = false
    rw [line_at_replicate]
    rfl
  -- first access: a miss, since every line is invalid
  rcases step_spec rnd k _ a p S 1 hS (le_refl _) h0 with
    ⟨w, c1, _, _, _, hh, _, _⟩ | ⟨v1, k1, c1, ho1, _, _, hv1, _, hc1, hl1⟩
  · rw [holds, hfresh] at hh
    exact absurd hh.1 (by decide)
  have ev1 : v1 = 0 := by omega
  subst ev1
  simp only [Nat.mul_one, Nat.add_zero] at ho1 hl1
  have ha1 : holds c1.cache_lines (get_index a S) (get_tag a) := by
    have := hl1 (get_index a S) (by omega)
    rw [holds, this, touch_valid, touch_tag]
    exact install_self _ _ _
  have hb1 : (line_at c1.cache_lines (get_index b S)).valid = false := by
    have := hl1 (get_index b S) (by omega)
    rw [this, touch_valid, install_other _ _ _ _ (fun h => hab h.symm)]
    exact hfresh _
  -- second access: a miss in another set
  rcases step_spec rnd k1 c1 b p S 1 hS (le_refl _) hc1 with
    ⟨w, c2, _, _, hw, hh, _, _⟩ | ⟨v2, k2, c2, ho2, _, _, hv2, _, hc2, hl2⟩
  · have ew : w = 0 := by omega
    subst ew
    simp only [Nat.mul_one, Nat.add_zero] at hh
    rw [holds, hb1] at hh
    exact absurd hh.1 (by decide)
  have ev2 : v2 = 0 := by omega
  subst ev2
  simp only [Nat.mul_one, Nat.add_zero] at ho2 hl2
  have ha2 : holds c2.cache_lines (get_index a S) (get_tag a) := by
    have := hl2 (get_index a S) (by omega)
    rw [holds, this, touch_valid, touch_tag, install_other _ _ _ _ hab]
    exact ha1
  -- third access: the line of a is still there
  rcases step_spec rnd k2 c2 a p S 1 hS (le_refl _) hc2 with
    ⟨w, c3, ho3, _, _, _, _, _⟩ | ⟨v3, k3, c3, _, _, _, _, hno, _, _⟩
  · refine ⟨c3, k2, ?_⟩
    simp [replay, ho1, ho2, ho3]
  · have := hno 0 (by omega)
    simp only [Nat.mul_one, Nat.add_zero] at this
    exact absurd ha2 this

/-- C8: in the direct-mapped geometry (8 sets of 1 way; configuration 0 is LRU, 1 is random),
for all addresses `a` and `b` that map to different sets, replaying `[a, b, a]` from the fresh
cache yields miss, miss, hit: one hit out of three accesses. -/
theorem direct_mapped_example (i : Fin 2) (rnd : Nat → Nat) (k : Nat) (a b : Nat)
    (hab : get_index a 8 ≠ get_index b 8) :
    (configs i.val).num_sets = 8 ∧ (configs i.val).num_ways = 1 ∧
    (configs i.val).policy = policy_of i.val ∧
    ∃ os c k1, replay rnd k (configs i.val) [a, b, a] = some (os, c, k1) ∧
      os = [Outcome.miss ((get_index a 8 : Nat) : Int),
        Outcome.miss ((get_index b 8 : Nat) : Int), Outcome.hit] ∧
      os.map Outcome.is_hit = [false, false, true] ∧
      (os.map Outcome.is_hit).count true = 1 ∧ os.length = 3 := by
  have key : ∀ j : Fin 2, configs j.val =
      fresh_cache (configs j.val).type (configs j.val).policy 8 1 := by decide
  refine ⟨by revert i; decide, by revert i; decide, by revert i; decide, ?_⟩
  obtain ⟨c, k1, h⟩ := direct_mapped_aba (configs i.val).type (configs i.val).policy 8
    (by decide) rnd k a b hab
  rw [← key i] at h
  exact ⟨_, c, k1, h, rfl, rfl, rfl, rfl⟩

/-- Witness for C8 with `a = 0`, `b = 4` (set indices 0 and 1), LRU policy. -/
theorem direct_mapped_example_witness :
    (configs (0 : Fin 2).val).num_sets = 8 ∧ (configs (0 : Fin 2).val).num_ways = 1 ∧
    (configs (0 : Fin 2).val).policy = policy_of (0 : Fin 2).val ∧
    ∃ os c k1, replay (fun _ => 0) 0 (configs (0 : Fin 2).val) [0, 4, 0] = some (os, c, k1) ∧
      os = [Outcome.miss ((get_index 0 8 : Nat) : Int),
        Outcome.miss ((get_index 4 8 : Nat) : Int), Outcome.hit] ∧
      os.map Outcome.is_hit = [false, false, true] ∧
      (os.map Outcome.is_hit).count true = 1 ∧ os.length = 3 :=
  direct_mapped_example 0 (fun _ => 0) 0 0 4 (by decide)

/-! ## No duplicate residents, frame -/

/-- C11: for every address (a natural number, so in particular every 32-bit unsigned one) and
every configuration built by `main`, `get_tag` is the integer division of the address by the
total block count `num_sets * num_ways` of the configuration, `get_index` is
`(address / 4) mod num_sets`, and that index is smaller than `num_sets`; for an address below
`2^32` both results are below `2^32`, so the unsigned 32-bit arithmetic of the program does not
wrap. -/
theorem decoder_matches_reference (i : Fin 8) (address : Nat) :
    get_tag address = address / ((configs i.val).num_sets * (configs i.val).num_ways) ∧
    get_index address (configs i.val).num_sets = (address / 4) % (configs i.val).num_sets ∧
    get_index address (configs i.val).num_sets < (configs i.val).num_sets ∧
    (address < 2 ^ 32 →
      get_tag address < 2 ^ 32 ∧ get_index address (configs i.val).num_sets < 2 ^ 32) := by
  have key : ∀ j : Fin 8, (configs j.val).num_sets * (configs j.val).num_ways = NUM_BLOCKS ∧
      1 ≤ (configs j.val).num_sets := by decide
  obtain ⟨h1, h2⟩ := key i
  have h3 : get_index address (configs i.val).num_sets < (configs i.val).num_sets :=
    get_index_lt _ _ h2
  refine ⟨by rw [h1]; rfl, rfl, h3, ?_⟩
  intro ha
  constructor
  · show address / 8 < 2 ^ 32
    omega
  · have h4 : get_index address (configs i.val).num_sets ≤ address / 4 := Nat.mod_le _ _
    omega

/-- C13, as stated, fails.  On an empty trace `main` evaluates the hit-rate division with
`num_accesses = 0` for every one of the 8 configurations (there is no guard); and when the
trace file cannot be opened `main` prints an error message and returns 1 without reporting
any configuration. -/
theorem main_unguarded_rate_and_missing_file :
    main (fun _ => 0) (some []) =
      some (0,
        [Output.config_report 1 CacheType.DIRECT_MAPPED ReplacementPolicy.LRU 0 0
            { hits := 0, num_accesses := 0 },
          Output.config_report 2 CacheType.DIRECT_MAPPED ReplacementPolicy.RANDOM 0 0
            { hits := 0, num_accesses := 0 },
          Output.config_report 3 CacheType.TWO_WAY ReplacementPolicy.LRU 0 0
            { hits := 0, num_accesses := 0 },
          Output.config_report 4 CacheType.TWO_WAY ReplacementPolicy.RANDOM 0 0
            { hits := 0, num_accesses := 0 },
          Output.config_report 5 CacheType.FOUR_WAY ReplacementPolicy.LRU 0 0
            { hits := 0, num_accesses := 0 },
          Output.config_report 6 CacheType.FOUR_WAY ReplacementPolicy.RANDOM 0 0
            { hits := 0, num_accesses := 0 },
          Output.config_report 7 CacheType.FULLY_ASSOC ReplacementPolicy.LRU 0 0
            { hits := 0, num_accesses := 0 },
          Output.config_report 8 CacheType.FULLY_ASSOC ReplacementPolicy.RANDOM 0 0
            { hits := 0, num_accesses := 0 }]) ∧
    main (fun _ => 0) none = some (1, [Output.cannot_open_file]) := by
  decide

/-- C13, amended: for an empty trace `main` returns 0 and reports, for each of the 8
configurations in order, zero hits and zero total accesses (nothing is said about the hit
rate); for a missing trace `main` prints the error message and returns 1, and reports no
configuration. -/
theorem main_empty_or_missing_trace (rnd : Nat → Nat) :
    (∃ lines, main rnd (some []) = some (0, lines) ∧ lines.length = 8 ∧
      ∀ i : Fin 8, ∃ rate, lines[i.val]? =
        some (Output.config_report (i.val + 1) (configs i.val).type (configs i.val).policy 0 0
          rate)) ∧
    main rnd none = some (1, [Output.cannot_open_file]) := by
  refine ⟨⟨_, rfl, rfl, ?_⟩, rfl⟩
  intro i
  fin_cases i <;> exact ⟨_, rfl⟩

/-! ## The recency update, for any cache -/

/-- C20: index safety.  In the embedding every read or write of `cache_lines[idx]` outside the
table makes the operation return `none`, and `access_cache` rejects a negative victim.  For each
of the 8 configurations built by `main`, every state reachable from its fresh cache, every
address and every random draw: the table has `num_sets * num_ways` lines and `access_cache`
returns; for every set, `find_replacement` returns the index of a line of that set (never the
initial `-1`), which is below `num_sets * num_ways`; `update_counters` returns for every set
and way; and on a miss the way `replacement % num_ways` passed to `update_counters` is the way
of the victim inside the target set. -/
theorem index_safety (i : Fin 8) (c : Cache) (hr : Reachable (configs i.val) c)
    (rnd : Nat → Nat) (k : Nat) (address : Nat) :
    c.num_sets = (configs i.val).num_sets ∧ c.num_ways = (configs i.val).num_ways ∧
    c.cache_lines.length = c.num_sets * c.num_ways ∧
    get_index address c.num_sets < c.num_sets ∧
    (∃ hit c1 k1, access_cache rnd k c address = some (hit, c1, k1) ∧
      (hit = false → ∃ v, v < c.num_ways ∧
        find_replacement rnd k c (get_index address c.num_sets) =
          some (((get_index address c.num_sets * c.num_ways + v : Nat) : Int), k1) ∧
        (get_index address c.num_sets * c.num_ways + v) % c.num_ways = v)) ∧
    (∀ s, s < c.num_sets → ∃ v k1, v < c.num_ways ∧
      find_replacement rnd k c s = some (((s * c.num_ways + v : Nat) : Int), k1) ∧
      ((s * c.num_ways + v : Nat) : Int) ≠ -1 ∧
      s * c.num_ways + v < c.num_sets * c.num_ways) ∧
    (∀ s w, s < c.num_sets → w < c.num_ways → ∃ c1, update_counters c s w = some c1) := by
  have hgeo : ∀ j : Fin 8, 1 ≤ (configs j.val).num_sets ∧ 1 ≤ (configs j.val).num_ways := by
    decide
  obtain ⟨hS, hW⟩ := hgeo i
  rw [configs_eq_fresh i.val] at hr
  have hc := reachable_shaped hS hW hr
  have hlen := shaped_length hc
  obtain ⟨h1, h2, h3, h4⟩ := hc
  have hc : Shaped c (configs i.val).policy (configs i.val).num_sets (configs i.val).num_ways :=
    ⟨h1, h2, h3, h4⟩
  have hS2 : 1 ≤ c.num_sets := by rw [h2]; exact hS
  have hW2 : 1 ≤ c.num_ways := by rw [h3]; exact hW
  refine ⟨h2, h3, h4.1, get_index_lt _ _ hS2, ?_, ?_, ?_⟩
  · rcases access_cache_spec rnd k c address hS2 hW2 h4 with
      ⟨w, c1, e1, _⟩ | ⟨v, k1, c1, e1, e2, e3, _⟩
    · exact ⟨true, c1, k, e1, fun h => (by cases h)⟩
    · exact ⟨false, c1, k1, e1, fun _ => ⟨v, e3, e2, Nat.mul_add_mod_of_lt e3⟩⟩
  · intro s hs
    obtain ⟨v, k1, hf, hv, _, _⟩ := find_replacement_spec rnd k c s hW2 hs h4
    refine ⟨v, k1, hv, hf, by omega, index_lt_length hs hv⟩
  · intro s w hs hw
    obtain ⟨c1, hu, _⟩ := update_counters_spec c s w (by rw [h4.1]; exact set_bound hs) hw
    exact ⟨c1, hu⟩

/-- Witness for C20: the fresh fully-associative random-policy cache (configuration 7),
address 12, draw 5. -/
theorem index_safety_witness :
    ∃ hit c1 k1, access_cache (fun _ => 5) 0 (configs 7) 12 = some (hit, c1, k1) ∧
      (hit = false → ∃ v, v < (configs 7).num_ways ∧
        find_replacement (fun _ => 5) 0 (configs 7) (get_index 12 (configs 7).num_sets) =
          some (((get_index 12 (configs 7).num_sets * (configs 7).num_ways + v : Nat) : Int),
            k1) ∧
        (get_index 12 (configs 7).num_sets * (configs 7).num_ways + v) %
          (configs 7).num_ways = v) :=
  (index_safety 7 (configs 7) Reachable.start (fun _ => 5) 0 12).2.2.2.2.1

end Caches
